import Mathlib

/-!
Verification development for the bloomspan corpus miner.

The repository contains two mining engines over the same integer-encoded
corpus model:

* GME (greedy maximal extension), in `src/corpus_miner.cpp`: n-gram seeds,
  greedy one-token rightward extension, path compression via a processed map.
* CPS (contiguous PrefixSpan), in `src/prefixspan/corpus_miner.cpp`:
  depth-first projected-database mining of contiguous patterns.

Both engines are embedded shallowly below: documents are lists of natural
number token ids, the corpus is a list of documents, and each C++ routine
becomes a Lean function with the same structure.  Hash-map and hash-set
iteration order (`std::unordered_map`, `std::unordered_set`) is modelled as
first-insertion order, and `std::sort` is modelled as a stable insertion
sort on the same comparator; both choices are noted at the definitions they
affect.
The cooperative stop flag is modelled as never set (no interruption occurs
during a run).
-/

/-- Tokenizer from `src/tokenizer.h`: maximal runs of alphanumeric
characters, lowercased; every other character is a separator. -/
def tokenize (text : String) : List String :=
  let step := fun (acc : List String × String) (c : Char) =>
    if c.isAlphanum then (acc.1, acc.2.push c.toLower)
    else if acc.2 ≠ "" then (acc.1 ++ [acc.2], "") else acc
  let r := text.toList.foldl step ([], "")
  if r.2 ≠ "" then r.1 ++ [r.2] else r.1

/-- Document lookup: `docs[i]`, with out-of-range reads giving the empty
document (never exercised by the engines, which index with `doc_id < n`). -/
def docAt (docs : List (List Nat)) (i : Nat) : List Nat := docs.getD i []

/-- The pattern `pat` matches document `d` as a contiguous run starting at
token offset `j`.  The `take`/`drop` formulation packages both conditions of
the spec: `j + |pat| ≤ |d|` and `d[j+i] = pat[i]` for all `i < |pat|`. -/
def matchesAt (d pat : List Nat) (j : Nat) : Prop :=
  (d.drop j).take pat.length = pat

instance (d pat : List Nat) (j : Nat) : Decidable (matchesAt d pat j) :=
  inferInstanceAs (Decidable (_ = _))

/-- Does `pat` occur (anywhere, as a contiguous run) in document `d`?  The
search range `j < |d|` is exact: a non-empty pattern can only match at
`j < |d|`, and the empty pattern matches a document exactly when the
document is non-empty, which is the convention the CPS root node uses. -/
def docHas (d pat : List Nat) : Bool :=
  (List.range d.length).any fun j => decide (matchesAt d pat j)

/-- The ascending list of ids of documents containing `pat`; its length is
the true distinct-document support of `pat` in the corpus. -/
def suppList (docs : List (List Nat)) (pat : List Nat) : List Nat :=
  (List.range docs.length).filter fun i => docHas (docAt docs i) pat

/-- Length of the longest document in the corpus. -/
def maxDocLen (docs : List (List Nat)) : Nat := (docs.map List.length).foldr max 0

/-- First-entry lookup in an association list (the reasoning-side view of
the `std::unordered_map`s modelled below). -/
def alookup {κ α : Type} [DecidableEq κ] (m : List (κ × α)) (k : κ) : Option α :=
  match m with
  | [] => none
  | p :: rest => if p.1 = k then some p.2 else alookup rest k

/-- Bucket of key `k`, empty when absent. -/
def aval {κ α : Type} [DecidableEq κ] (m : List (κ × List α)) (k : κ) : List α :=
  (alookup m k).getD []

/-- Keys of an association list, in order. -/
def akeys {κ α : Type} (m : List (κ × α)) : List κ := m.map Prod.fst

namespace CPS

/-- Mining modes, from `src/prefixspan/corpus_miner.h`. -/
inductive MiningMode
  | MODE_ALL
  | MODE_CLOSED
  | MODE_MAXIMAL
deriving DecidableEq

export MiningMode (MODE_ALL MODE_CLOSED MODE_MAXIMAL)

/-- Continuation point of the projected database
(`struct Projection` in `src/prefixspan/corpus_miner.cpp`). -/
structure Projection where
  doc_id : Nat
  pos : Nat
  origin : Nat
deriving DecidableEq

/-- Result record of the CPS engine (`struct Phrase` in
`src/prefixspan/corpus_miner.cpp`); its occurrences carry document ids
only. -/
structure Phrase where
  tokens : List Nat
  support : Nat
  occs : List Nat
deriving DecidableEq

/-- The push-if-differs rule of `occ_delivery`: append the document id to a
bucket unless it already sits at the bucket's end.  New buckets are created
at the end of the association list, modelling `std::unordered_map` iteration
order as first-insertion order. -/
def pushDoc (ds : List Nat) (d : Nat) : List Nat :=
  if ds.getLast? = some d then ds else ds ++ [d]

/-- The bucket update of `occ_delivery` on one continuation point (see
`pushDoc` for the push-if-differs rule applied to the bucket). -/
def addSupport (m : List (Nat × List Nat)) (tok d : Nat) : List (Nat × List Nat) :=
  match m with
  | [] => [(tok, pushDoc [] d)]
  | (t, ds) :: rest =>
    if t = tok then (t, pushDoc ds d) :: rest
    else (t, ds) :: addSupport rest tok d

/-- Processing of one continuation point by `occ_delivery`: ignore it when
its position has run past the document, otherwise push its document id into
the bucket of the token at that position. -/
def deliveryStep (docs : List (List Nat)) (m : List (Nat × List Nat)) (proj : Projection) :
    List (Nat × List Nat) :=
  let dl := docAt docs proj.doc_id
  if proj.pos < dl.length then addSupport m (dl.getD proj.pos 0) proj.doc_id else m

/-- `PrefixSpanEngine::occ_delivery`: scan the projected database once and
accumulate, per extension token, the distinct document ids in which it
appears at the current position. -/
def occ_delivery (docs : List (List Nat)) (db : List Projection) : List (Nat × List Nat) :=
  db.foldl (deliveryStep docs) []

/-- The output decision of `mine_recursive` given the mode and the two
extension flags. -/
def shouldOut : MiningMode → Bool → Bool → Bool
  | MODE_ALL, _, _ => true
  | MODE_MAXIMAL, hasFreq, _ => !hasFreq
  | MODE_CLOSED, _, hasSame => !hasSame

/-- Child projected-database construction inside `mine_recursive`'s
expansion loop: keep the points whose current token is `tok`, advance them
by one, and drop the ones that would fall at the end of their document. -/
def nextDbStep (docs : List (List Nat)) (tok : Nat) (db : List Projection) : List Projection :=
  db.filterMap fun proj =>
    let dl := docAt docs proj.doc_id
    if proj.pos < dl.length ∧ dl.getD proj.pos 0 = tok ∧ proj.pos + 1 < dl.length then
      some ⟨proj.doc_id, proj.pos + 1, proj.origin⟩
    else none

/-- `PrefixSpanEngine::mine_recursive`, with an explicit recursion-depth
fuel (the C++ recursion is proved below to stay within
`maxDocLen docs + 1`, so the fuelled function with that budget computes the
same results as the unbounded recursion).  Phrases are returned in emission
order: the current node's phrase first, then the subtrees in the iteration
order of `item_supports`. -/
def mine_recursive (docs : List (List Nat)) (min_docs min_length : Nat) (mode : MiningMode) :
    Nat → List Projection → List Nat → Nat → List Phrase
  | 0, _, _, _ => []
  | fuel + 1, db, pfx, support =>
    let items := occ_delivery docs db
    let hasFreq := items.any fun p => decide (min_docs ≤ p.2.length)
    let hasSame := items.any fun p =>
      decide (min_docs ≤ p.2.length) && decide (p.2.length = support)
    let out : List Phrase :=
      if min_length ≤ pfx.length ∧ shouldOut mode hasFreq hasSame = true then
        [⟨pfx, support, (db.map Projection.doc_id).dedup⟩]
      else []
    out ++ items.flatMap fun p =>
      if min_docs ≤ p.2.length then
        let next_db := nextDbStep docs p.1 db
        if next_db.isEmpty then []
        else mine_recursive docs min_docs min_length mode fuel next_db (pfx ++ [p.1]) p.2.length
      else []

/-- The initial projected database built by `PrefixSpanEngine::run`:
one continuation point `(i, j, j)` for every position `j` of every
non-empty document `i`. -/
def initial_db (docs : List (List Nat)) : List Projection :=
  (List.range docs.length).flatMap fun i =>
    if docAt docs i = [] then []
    else (List.range (docAt docs i).length).map fun j => ⟨i, j, j⟩

/-- The initial support computed by `PrefixSpanEngine::run`: the number of
non-empty documents. -/
def initial_support (docs : List (List Nat)) : Nat :=
  ((List.range docs.length).filter fun i => !(docAt docs i).isEmpty).length

/-- `PrefixSpanEngine::run`: build the initial database and mine, with fuel
ample for the whole recursion. -/
def run (docs : List (List Nat)) (min_docs min_length : Nat) (mode : MiningMode) : List Phrase :=
  mine_recursive docs min_docs min_length mode (maxDocLen docs + 1)
    (initial_db docs) [] (initial_support docs)

/-- The spec-side projected database at prefix `pat`: the continuation
points `(i, j + |pat|, j)` for every match of `pat` at `j` that ends
strictly before the end of its document, grouped by document in ascending
order.  The engine's databases are proved equal to this below. -/
def dbBlock (docs : List (List Nat)) (pat : List Nat) (i : Nat) : List Projection :=
  ((List.range (docAt docs i).length).filter fun j =>
      decide (matchesAt (docAt docs i) pat j) &&
      decide (j + pat.length < (docAt docs i).length)).map
    fun j => ⟨i, j + pat.length, j⟩

/-- See `dbBlock`: the whole spec-side database is the concatenation of the
per-document blocks in ascending document order. -/
def dbOf (docs : List (List Nat)) (pat : List Nat) : List Projection :=
  (List.range docs.length).flatMap (dbBlock docs pat)

/-- The C++ claim context for completeness: `pat` has at least one
occurrence followed by at least one further token in its document. -/
def Extendable (docs : List (List Nat)) (pat : List Nat) : Prop :=
  ∃ i < docs.length, ∃ j, matchesAt (docAt docs i) pat j ∧
    j + pat.length < (docAt docs i).length

end CPS

/-- Termination measure for `mine_recursive`: the largest number of tokens
any continuation point still has in front of it.  Every child database
advances each surviving point by exactly one position, so this measure
strictly decreases along the recursion. -/
def remBound (docs : List (List Nat)) (db : List CPS.Projection) : Nat :=
  (db.map fun p => (docAt docs p.doc_id).length - p.pos).foldr max 0

namespace GME

/-- Occurrence of a phrase (`struct Occurrence` in `corpus_miner.h` of the
GME variant): a document id and a start offset. -/
structure Occurrence where
  doc_id : Nat
  pos : Nat
deriving DecidableEq

/-- Result record of the GME engine (`struct Phrase`): token sequence,
occurrence list and distinct-document support. -/
structure Phrase where
  tokens : List Nat
  occs : List Occurrence
  support : Nat
deriving DecidableEq

/-- Append a value to the bucket of key `k` in an association list,
creating the bucket at the end on first sight.  This models pushing into an
`std::unordered_map` bucket with iteration order taken to be first-insertion
order. -/
def assocAppend {κ α : Type} [DecidableEq κ] (m : List (κ × List α)) (k : κ) (v : α) :
    List (κ × List α) :=
  match m with
  | [] => [(k, [v])]
  | (k', vs) :: rest =>
    if k' = k then (k', vs ++ [v]) :: rest else (k', vs) :: assocAppend rest k v

/-- Distinct-document count of an occurrence list (the
`std::unordered_set<uint32_t>` cardinality used throughout `mine`). -/
def uniqDocs (occs : List Occurrence) : Nat := (occs.map Occurrence.doc_id).dedup.length

/-- Step 1 of `CorpusMiner::mine`: bucket every contiguous `ngrams`-gram of
every document, keyed by the token tuple, occurrences in scan order. -/
def seedOccs (docs : List (List Nat)) (ngrams : Nat) : List (List Nat × List Occurrence) :=
  (List.range docs.length).foldl
    (fun m d =>
      let dl := docAt docs d
      if dl.length < ngrams then m
      else
        (List.range (dl.length - ngrams + 1)).foldl
          (fun m2 p => assocAppend m2 ((dl.drop p).take ngrams) ⟨d, p⟩) m)
    []

/-- Step 1 continued: keep the buckets reaching `min_docs` distinct
documents, as candidate phrases. -/
def candidatesOf (docs : List (List Nat)) (min_docs ngrams : Nat) : List Phrase :=
  (seedOccs docs ngrams).filterMap fun p =>
    if min_docs ≤ uniqDocs p.2 then some ⟨p.1, p.2, uniqDocs p.2⟩ else none

/-- Step 2 of `CorpusMiner::mine`: sort candidates by support descending.
The C++ `std::sort` with comparator `a.support > b.support` is modelled as a
stable insertion sort on the same order. -/
def sortCandidates (cs : List Phrase) : List Phrase :=
  List.insertionSort (fun a b => b.support ≤ a.support) cs

/-- Accumulator of the best-next-token scan in the expansion loop. -/
structure Best where
  word : Nat
  maxSupport : Nat
  occs : List Occurrence
deriving DecidableEq

/-- The best-extension scan of the expansion loop: among the candidate next
tokens, keep the one of largest distinct-document support reaching
`min_docs`; the `≥` comparison makes a later tie replace the current best. -/
def chooseBest (min_docs : Nat) (items : List (Nat × List Occurrence)) : Best :=
  items.foldl
    (fun acc p =>
      let ud := uniqDocs p.2
      if min_docs ≤ ud ∧ acc.maxSupport ≤ ud then ⟨p.1, ud, p.2⟩ else acc)
    ⟨0, 0, []⟩

/-- Partition the current occurrences by the token immediately following the
phrase, dropping occurrences that fall off their document's end
(`next_word_occs` in `CorpusMiner::mine`). -/
def nextWordOccs (docs : List (List Nat)) (cand : Phrase) : List (Nat × List Occurrence) :=
  cand.occs.foldl
    (fun m o =>
      let dl := docAt docs o.doc_id
      let np := o.pos + cand.tokens.length
      if np < dl.length then assocAppend m (dl.getD np 0) o else m)
    []

/-- One iteration of the expansion `while` loop: extend by the best next
token when one reaches `min_docs`, otherwise leave the candidate as is. -/
def extendStep (docs : List (List Nat)) (min_docs : Nat) (cand : Phrase) : Phrase :=
  let best := chooseBest min_docs (nextWordOccs docs cand)
  if 0 < best.maxSupport then ⟨cand.tokens ++ [best.word], best.occs, best.maxSupport⟩ else cand

/-- The expansion `while` loop of `CorpusMiner::mine`, fuelled; each
successful iteration lengthens the phrase by one token, and occurrences stay
inside their documents, so `maxDocLen docs + 1` fuel is ample. -/
def extendLoop (docs : List (List Nat)) (min_docs : Nat) : Nat → Phrase → Phrase
  | 0, cand => cand
  | fuel + 1, cand =>
    let best := chooseBest min_docs (nextWordOccs docs cand)
    if 0 < best.maxSupport then
      extendLoop docs min_docs fuel ⟨cand.tokens ++ [best.word], best.occs, best.maxSupport⟩
    else cand

/-- Mark one corpus position as consumed; out-of-range writes are dropped,
as in the C++ bound check. -/
def markPos (pm : List (List Bool)) (d p : Nat) : List (List Bool) :=
  pm.set d ((pm.getD d []).set p true)

/-- Mark the full span of every occurrence of an accepted phrase. -/
def markPhrase (pm : List (List Bool)) (c : Phrase) : List (List Bool) :=
  c.occs.foldl
    (fun pm2 o =>
      (List.range c.tokens.length).foldl (fun pm3 i => markPos pm3 o.doc_id (o.pos + i)) pm2)
    pm

/-- Step 3 of `CorpusMiner::mine`: iterate candidates in sorted order,
skipping a candidate when every occurrence start is already marked,
otherwise extending it greedily, marking its span and emitting it. -/
def mineLoop (docs : List (List Nat)) (min_docs fuel : Nat) :
    List Phrase → List (List Bool) → List Phrase
  | [], _ => []
  | c :: rest, pm =>
    if c.occs.all fun o => (pm.getD o.doc_id []).getD o.pos false then
      mineLoop docs min_docs fuel rest pm
    else
      let c2 := extendLoop docs min_docs fuel c
      c2 :: mineLoop docs min_docs fuel rest (markPhrase pm c2)

/-- `CorpusMiner::mine` of the GME variant: seeds, filtering, sorting, then
the greedy extension loop with path compression. -/
def mine (docs : List (List Nat)) (min_docs ngrams : Nat) : List Phrase :=
  mineLoop docs min_docs (maxDocLen docs + 1)
    (sortCandidates (candidatesOf docs min_docs ngrams))
    (docs.map fun dl => dl.map fun _ => false)

/-- Distinct document ids in first-occurrence order, modelling insertion
into the `std::unordered_set` used by `save_to_csv`. -/
def dedupFirst (l : List Nat) : List Nat :=
  l.foldl (fun acc x => if x ∈ acc then acc else acc ++ [x]) []

/-- Surface form of a phrase: words joined by single spaces. -/
def joinWords (id_to_word : List String) (toks : List Nat) : String :=
  String.intercalate " " (toks.map fun t => id_to_word.getD t "")

/-- The `example_files` field written by the GME `save_to_csv`: iterate the
distinct-document set, printing a path then `"|"` after the first entry and
nothing after the second, stopping after two entries. -/
def exampleFiles (paths : List String) : List Nat → Nat → String
  | [], _ => ""
  | id :: rest, count =>
    paths.getD id "" ++ (if count < 1 then "|" else "") ++
      (if count + 1 > 1 then "" else exampleFiles paths rest (count + 1))

/-- One CSV row of the GME `save_to_csv`. -/
def csvRow (id_to_word paths : List String) (p : Phrase) : String :=
  "\"" ++ joinWords id_to_word p.tokens ++ "\"," ++ toString p.support ++ "," ++
    toString p.tokens.length ++ ",\"" ++
    exampleFiles paths (dedupFirst (p.occs.map Occurrence.doc_id)) 0 ++ "\"\n"

/-- `CorpusMiner::save_to_csv` of the GME variant: a header line followed by
one row per phrase, in the order of the result list (this writer does not
sort). -/
def save_to_csv (id_to_word paths : List String) (res : List Phrase) : String :=
  "phrase,freq,length,example_files\n" ++ String.join (res.map (csvRow id_to_word paths))

/-- Encode one document against the running dictionary: a word already in
`id_to_word` keeps its index, a new word is appended and receives the next
dense id (Phase II of `load_directory`). -/
def encodeTokens (idw : List String) (raw : List String) : List String × List Nat :=
  raw.foldl
    (fun st w =>
      match st.1.indexOf? w with
      | some i => (st.1, st.2 ++ [i])
      | none => (st.1 ++ [w], st.2 ++ [st.1.length]))
    (idw, [])

/-- Encode the whole corpus in load order, threading the dictionary. -/
def encodeCorpus (raws : List (List String)) : List String × List (List Nat) :=
  raws.foldl
    (fun st raw =>
      let r := encodeTokens st.1 raw
      (r.1, st.2 ++ [r.2]))
    ([], [])

/-- The full GME pipeline on an ordered list of `(path, contents)` pairs:
tokenize, encode, mine, save.  `load_directory` shuffles the scanned paths
with a `std::random_device`-seeded generator before this processing, so the
order of the input list is the shuffle's outcome. -/
def pipeline (files : List (String × String)) (min_docs ngrams : Nat) : String :=
  let raws := files.map fun f => tokenize f.2
  let enc := encodeCorpus raws
  save_to_csv enc.1 (files.map Prod.fst) (mine enc.2 min_docs ngrams)

/-- Modelled from the spec's words (for comparison with `chooseBest`): the
token of largest distinct-document support among the candidate next tokens,
ties broken by first encountered. -/
def specFirstMaxWord (min_docs : Nat) (items : List (Nat × List Occurrence)) : Option Nat :=
  ((items.filter fun p =>
      decide (min_docs ≤ uniqDocs p.2) &&
      decide (∀ q ∈ items, min_docs ≤ uniqDocs q.2 → uniqDocs q.2 ≤ uniqDocs p.2)).head?).map
    Prod.fst

/-- Spec-side well-formedness of one occurrence of a phrase: the span fits
inside the document and the tokens agree position by position (the
contiguity invariant of the data model). -/
def OccFits (docs : List (List Nat)) (toks : List Nat) (o : Occurrence) : Prop :=
  o.pos + toks.length ≤ (docAt docs o.doc_id).length ∧
    matchesAt (docAt docs o.doc_id) toks o.pos

instance (docs : List (List Nat)) (toks : List Nat) (o : Occurrence) :
    Decidable (OccFits docs toks o) :=
  inferInstanceAs (Decidable (_ ∧ _))

/-- Spec-side candidate invariant maintained by the GME engine: every
occurrence fits, the stored support is the distinct-document count of the
occurrence list, and the support clears the document-frequency floor. -/
def CandInv (docs : List (List Nat)) (min_docs : Nat) (c : Phrase) : Prop :=
  (∀ o ∈ c.occs, OccFits docs c.tokens o) ∧
    c.support = uniqDocs c.occs ∧ min_docs ≤ c.support

end GME

/-- The CSV sort of the CPS-variant `CorpusMiner::save_to_csv`: support
descending, ties by token count descending (`std::sort` modelled as a stable
insertion sort on the same order). -/
def sortForOutput (res : List CPS.Phrase) : List CPS.Phrase :=
  List.insertionSort
    (fun a b => b.support < a.support ∨ (a.support = b.support ∧ b.tokens.length ≤ a.tokens.length))
    res

section Sanity

example : CPS.initial_db [[7, 8], []] = [⟨0, 0, 0⟩, ⟨0, 1, 1⟩] := by decide

example : CPS.dbOf [[7, 8], []] [] = [⟨0, 0, 0⟩, ⟨0, 1, 1⟩] := by decide

example :
    (CPS.run [[0, 1, 2], [0, 1]] 1 2 CPS.MODE_ALL).map (fun p => (p.tokens, p.support, p.occs)) =
      [([0, 1], 2, [0])] := by decide

example : (CPS.run [[0]] 2 0 CPS.MODE_ALL).map (fun p => (p.tokens, p.support)) = [([], 1)] := by
  decide

example : tokenize "See the Quick brown-fox; run!" =
    ["see", "the", "quick", "brown", "fox", "run"] := by decide

example :
    (GME.mine [[0, 1], [0, 1], [0, 2], [2], [2], [2]] 1 1).map (fun p => (p.tokens, p.support)) =
      [([2], 4), ([0, 1], 2)] := by decide

end Sanity

section MatchLemmas

theorem matchesAt_nil (d : List Nat) (j : Nat) : matchesAt d [] j := rfl

theorem matchesAt_le_length {d pat : List Nat} {j : Nat} (hne : pat ≠ [])
    (h : matchesAt d pat j) : j + pat.length ≤ d.length := by
  have hlen := congrArg List.length h
  simp only [List.length_take, List.length_drop] at hlen
  have h1 : 1 ≤ pat.length := by
    cases pat with
    | nil => exact absurd rfl hne
    | cons a l => simp
  omega

theorem matchesAt_snoc {d pat : List Nat} {w j : Nat} :
    matchesAt d (pat ++ [w]) j ↔
      matchesAt d pat j ∧ j + pat.length < d.length ∧ d.getD (j + pat.length) 0 = w := by
  unfold matchesAt
  simp only [List.length_append, List.length_singleton]
  rw [List.take_succ]
  constructor
  · intro h
    have hsome : (d.drop j)[pat.length]? = some w := by
      cases hw : (d.drop j)[pat.length]? with
      | none =>
        rw [hw] at h
        have := congrArg List.length h
        have hle : (List.take pat.length (d.drop j)).length ≤ pat.length := by
          simp [List.length_take]
        simp at this
        omega
      | some a =>
        rw [hw] at h
        have hlen : (List.take pat.length (d.drop j)).length = pat.length := by
          have := congrArg List.length h
          simp at this
          simp [List.length_take]
          omega
        have := List.append_inj_right h (by rw [hlen])
        simp at this
        rw [this]
    have hlt : pat.length < (d.drop j).length := List.getElem?_eq_some_iff.mp hsome |>.1
    have hjl : j + pat.length < d.length := by
      simp [List.length_drop] at hlt
      omega
    have htake : List.take pat.length (d.drop j) = pat := by
      rw [hsome] at h
      exact List.append_inj_left h (by
        simp [List.length_take, List.length_drop]
        omega)
    refine ⟨htake, hjl, ?_⟩
    rw [List.getD_eq_getElem?_getD, ← List.getElem?_drop, hsome]
    rfl
  · rintro ⟨h1, h2, h3⟩
    have hlt : pat.length < (d.drop j).length := by
      simp [List.length_drop]
      omega
    have hsome : (d.drop j)[pat.length]? = some w := by
      rw [List.getElem?_drop]
      rw [List.getD_eq_getElem?_getD] at h3
      cases hw : d[j + pat.length]? with
      | none =>
        have := List.getElem?_eq_none_iff.mp hw
        omega
      | some a =>
        rw [hw] at h3
        simp at h3
        rw [h3]
    rw [h1, hsome]
    rfl

theorem matchesAt_of_append {d pat ext : List Nat} {j : Nat}
    (h : matchesAt d (pat ++ ext) j) : matchesAt d pat j := by
  unfold matchesAt at h ⊢
  have : List.take pat.length (List.take (pat ++ ext).length (d.drop j)) =
      List.take pat.length (pat ++ ext) := by rw [h]
  rwa [List.take_take, List.take_left, Nat.min_eq_left (by simp)] at this

end MatchLemmas

section SuppLemmas

theorem docHas_iff {d pat : List Nat} :
    docHas d pat = true ↔ ∃ j < d.length, matchesAt d pat j := by
  unfold docHas
  simp [List.any_eq_true, List.mem_range]

theorem docHas_nil (d : List Nat) : docHas d [] = !d.isEmpty := by
  cases d with
  | nil => rfl
  | cons a l =>
    simp only [List.isEmpty_cons, Bool.not_false]
    rw [docHas_iff]
    exact ⟨0, by simp, matchesAt_nil _ _⟩

theorem suppList_nodup (docs : List (List Nat)) (pat : List Nat) : (suppList docs pat).Nodup :=
  (List.nodup_range _).filter _

theorem mem_suppList {docs : List (List Nat)} {pat : List Nat} {i : Nat} :
    i ∈ suppList docs pat ↔ i < docs.length ∧ ∃ j < (docAt docs i).length,
      matchesAt (docAt docs i) pat j := by
  unfold suppList
  rw [List.mem_filter, List.mem_range, docHas_iff]

theorem suppList_append_sublist (docs : List (List Nat)) (pat ext : List Nat) :
    (suppList docs (pat ++ ext)).Sublist (suppList docs pat) := by
  unfold suppList
  apply List.monotone_filter_right
  intro i hi
  rw [docHas_iff] at hi ⊢
  obtain ⟨j, hj, hm⟩ := hi
  exact ⟨j, hj, matchesAt_of_append hm⟩

theorem suppList_append_le (docs : List (List Nat)) (pat ext : List Nat) :
    (suppList docs (pat ++ ext)).length ≤ (suppList docs pat).length :=
  (suppList_append_sublist docs pat ext).length_le

theorem initial_support_eq (docs : List (List Nat)) :
    CPS.initial_support docs = (suppList docs []).length := by
  unfold CPS.initial_support suppList
  congr 1
  apply List.filter_congr
  intro i _
  rw [docHas_nil]

end SuppLemmas

section DbLemmas

theorem mem_dbOf {docs : List (List Nat)} {pat : List Nat} {pr : CPS.Projection} :
    pr ∈ CPS.dbOf docs pat ↔
      pr.doc_id < docs.length ∧ matchesAt (docAt docs pr.doc_id) pat pr.origin ∧
      pr.origin + pat.length < (docAt docs pr.doc_id).length ∧
      pr.pos = pr.origin + pat.length := by
  unfold CPS.dbOf CPS.dbBlock
  simp only [List.mem_flatMap, List.mem_map, List.mem_filter, List.mem_range,
    Bool.and_eq_true, decide_eq_true_eq]
  constructor
  · rintro ⟨i, hi, j, ⟨⟨hj, hm, hlt⟩, rfl⟩⟩
    exact ⟨hi, hm, hlt, rfl⟩
  · rintro ⟨hi, hm, hlt, hpos⟩
    refine ⟨pr.doc_id, hi, pr.origin, ⟨⟨?_, hm, hlt⟩, ?_⟩⟩
    · omega
    · cases pr
      simp only at hpos ⊢
      rw [hpos]

theorem dbOf_doc_mem_suppList {docs : List (List Nat)} {pat : List Nat} {pr : CPS.Projection}
    (h : pr ∈ CPS.dbOf docs pat) : pr.doc_id ∈ suppList docs pat := by
  rw [mem_dbOf] at h
  rw [mem_suppList]
  exact ⟨h.1, pr.origin, by omega, h.2.1⟩

theorem initial_db_eq (docs : List (List Nat)) : CPS.initial_db docs = CPS.dbOf docs [] := by
  unfold CPS.initial_db CPS.dbOf CPS.dbBlock
  apply List.flatMap_congr
  intro i _
  cases hd : docAt docs i with
  | nil => simp
  | cons a l =>
    rw [if_neg (by simp)]
    have hfilter : (List.range (a :: l).length).filter
        (fun j => decide (matchesAt (a :: l) [] j) &&
          decide (j + ([] : List Nat).length < (a :: l).length)) =
        List.range (a :: l).length := by
      apply List.filter_eq_self.mpr
      intro j hj
      rw [List.mem_range] at hj
      simp only [matchesAt_nil, decide_eq_true_eq]
      simp at hj ⊢
      omega
    rw [hfilter]
    simp

end DbLemmas


section AssocLemmas

theorem mem_of_alookup {κ α : Type} [DecidableEq κ] {m : List (κ × α)} {k : κ} {v : α}
    (h : alookup m k = some v) : (k, v) ∈ m := by
  induction m with
  | nil => simp [alookup] at h
  | cons p rest ih =>
    unfold alookup at h
    by_cases hp : p.1 = k
    · rw [if_pos hp] at h
      have hv : p.2 = v := by injection h
      have hpk : p = (k, v) := by
        obtain ⟨p1, p2⟩ := p
        simp only at hp hv
        rw [hp, hv]
      rw [← hpk]
      exact List.mem_cons_self _ _
    · rw [if_neg hp] at h
      exact List.mem_cons_of_mem _ (ih h)

theorem alookup_of_mem_nodup {κ α : Type} [DecidableEq κ] {m : List (κ × α)} {k : κ} {v : α}
    (hnd : (akeys m).Nodup) (h : (k, v) ∈ m) : alookup m k = some v := by
  induction m with
  | nil => simp at h
  | cons p rest ih =>
    rw [List.mem_cons] at h
    unfold alookup
    rcases h with h | h
    · rw [← h]
      simp
    · have hk : k ∈ akeys rest := by
        have : (k, v).1 ∈ List.map Prod.fst rest := List.mem_map_of_mem Prod.fst h
        exact this
      have hnd2 : p.1 ∉ akeys rest ∧ (akeys rest).Nodup := by
        unfold akeys at hnd ⊢
        rw [List.map_cons, List.nodup_cons] at hnd
        exact hnd
      have hp1 : p.1 ≠ k := fun he => hnd2.1 (he ▸ hk)
      rw [if_neg hp1]
      exact ih hnd2.2 h

theorem alookup_eq_some_aval {κ α : Type} [DecidableEq κ] {m : List (κ × List α)} {k : κ}
    (h : aval m k ≠ []) : alookup m k = some (aval m k) := by
  unfold aval at h ⊢
  cases hl : alookup m k with
  | none => rw [hl] at h; simp at h
  | some v => rfl

theorem aval_cons_ne {κ α : Type} [DecidableEq κ] {a : κ × List α} {rest : List (κ × List α)}
    {t : κ} (h : a.1 ≠ t) : aval (a :: rest) t = aval rest t := by
  unfold aval
  have h2 : alookup (a :: rest) t = alookup rest t := by
    rw [alookup, if_neg h]
  rw [h2]

end AssocLemmas

section AddSupportLemmas

theorem alookup_addSupport (m : List (Nat × List Nat)) (tok d t : Nat) :
    alookup (CPS.addSupport m tok d) t =
      if t = tok then some (CPS.pushDoc (aval m tok) d) else alookup m t := by
  induction m with
  | nil =>
    by_cases h : t = tok
    · subst h
      simp [CPS.addSupport, alookup, aval]
    · simp [CPS.addSupport, alookup, aval, h, Ne.symm h]
  | cons p rest ih =>
    obtain ⟨a, ds⟩ := p
    by_cases ha : a = tok
    · subst ha
      rw [show CPS.addSupport ((a, ds) :: rest) a d = (a, CPS.pushDoc ds d) :: rest from by
        rw [CPS.addSupport, if_pos rfl]]
      by_cases ht : t = a
      · subst ht
        rw [alookup, if_pos rfl, if_pos rfl]
        rw [show aval ((t, ds) :: rest) t = ds from by rw [aval, alookup, if_pos rfl]; rfl]
      · rw [alookup, if_neg (by simpa using Ne.symm ht), if_neg ht, alookup,
          if_neg (by simpa using Ne.symm ht)]
    · rw [show CPS.addSupport ((a, ds) :: rest) tok d = (a, ds) :: CPS.addSupport rest tok d from by
        rw [CPS.addSupport, if_neg ha]]
      by_cases ht : a = t
      · subst ht
        rw [alookup, if_pos rfl, if_neg (show a ≠ tok from ha), alookup, if_pos rfl]
      · rw [alookup, if_neg (show (a, ds).1 ≠ t from ht), ih]
        by_cases h2 : t = tok
        · subst h2
          rw [if_pos rfl, if_pos rfl, aval_cons_ne (show (a, ds).1 ≠ t from ht)]
        · rw [if_neg h2, if_neg h2, alookup, if_neg (show (a, ds).1 ≠ t from ht)]

theorem akeys_addSupport (m : List (Nat × List Nat)) (tok d : Nat) :
    akeys (CPS.addSupport m tok d) =
      if tok ∈ akeys m then akeys m else akeys m ++ [tok] := by
  induction m with
  | nil => simp [CPS.addSupport, akeys]
  | cons p rest ih =>
    obtain ⟨a, ds⟩ := p
    by_cases ha : a = tok
    · subst ha
      rw [show CPS.addSupport ((a, ds) :: rest) a d = (a, CPS.pushDoc ds d) :: rest from by
        rw [CPS.addSupport, if_pos rfl]]
      simp [akeys]
    · rw [show CPS.addSupport ((a, ds) :: rest) tok d = (a, ds) :: CPS.addSupport rest tok d from by
        rw [CPS.addSupport, if_neg ha]]
      unfold akeys at ih ⊢
      simp only [List.map_cons]
      rw [ih]
      by_cases hm : tok ∈ List.map Prod.fst rest
      · simp [hm, Ne.symm ha]
      · simp [hm, Ne.symm ha]

theorem akeys_addSupport_nodup {m : List (Nat × List Nat)} (hnd : (akeys m).Nodup)
    (tok d : Nat) : (akeys (CPS.addSupport m tok d)).Nodup := by
  rw [akeys_addSupport]
  by_cases hm : tok ∈ akeys m
  · simpa [hm]
  · rw [if_neg hm]
    refine List.Nodup.append hnd (List.nodup_singleton tok) ?_
    intro x hx hx'
    simp at hx'
    subst hx'
    exact hm hx

theorem addSupport_vals_ne_nil {m : List (Nat × List Nat)}
    (hv : ∀ q ∈ m, q.2 ≠ []) (tok d : Nat) :
    ∀ q ∈ CPS.addSupport m tok d, q.2 ≠ [] := by
  induction m with
  | nil =>
    intro q hq
    unfold CPS.addSupport at hq
    simp at hq
    subst hq
    simp [CPS.pushDoc]
  | cons p rest ih =>
    obtain ⟨a, ds⟩ := p
    intro q hq
    unfold CPS.addSupport at hq
    by_cases ha : a = tok
    · rw [if_pos ha] at hq
      rcases List.mem_cons.mp hq with h | h
      · subst h
        simp only [ne_eq]
        unfold CPS.pushDoc
        have hds := hv (a, ds) (by simp)
        by_cases hl : ds.getLast? = some d
        · simpa [hl] using hds
        · simp [hl]
      · exact hv q (List.mem_cons_of_mem _ h)
    · rw [if_neg ha] at hq
      rcases List.mem_cons.mp hq with h | h
      · subst h
        exact hv (a, ds) (by simp)
      · exact ih (fun q' hq' => hv q' (List.mem_cons_of_mem _ hq')) q h

end AddSupportLemmas

section DeliveryLemmas

theorem mem_of_getLast?_eq {α : Type} {l : List α} {a : α} (h : l.getLast? = some a) : a ∈ l := by
  have hm : a ∈ l.getLast? := by rw [h]; rfl
  obtain ⟨hne, he⟩ := List.mem_getLast?_eq_getLast hm
  rw [he]
  exact List.getLast_mem hne

theorem aval_addSupport (m : List (Nat × List Nat)) (tok d t : Nat) :
    aval (CPS.addSupport m tok d) t =
      if t = tok then CPS.pushDoc (aval m tok) d else aval m t := by
  unfold aval
  rw [alookup_addSupport]
  by_cases h : t = tok
  · rw [if_pos h, if_pos h]
    rfl
  · rw [if_neg h, if_neg h]

theorem mem_dbBlock {docs : List (List Nat)} {pat : List Nat} {i : Nat} {pr : CPS.Projection} :
    pr ∈ CPS.dbBlock docs pat i ↔
      ∃ j, (j < (docAt docs i).length ∧ matchesAt (docAt docs i) pat j ∧
        j + pat.length < (docAt docs i).length) ∧ pr = ⟨i, j + pat.length, j⟩ := by
  unfold CPS.dbBlock
  simp only [List.mem_map, List.mem_filter, List.mem_range, Bool.and_eq_true, decide_eq_true_eq]
  constructor
  · rintro ⟨j, ⟨hj, hm, hlt⟩, rfl⟩
    exact ⟨j, ⟨hj, hm, hlt⟩, rfl⟩
  · rintro ⟨j, ⟨hj, hm, hlt⟩, rfl⟩
    exact ⟨j, ⟨hj, hm, hlt⟩, rfl⟩

theorem foldl_deliveryStep_block (docs : List (List Nat)) (i : Nat) :
    ∀ (ps : List CPS.Projection) (m : List (Nat × List Nat)),
      (∀ p ∈ ps, p.doc_id = i ∧ p.pos < (docAt docs i).length) →
      (∀ t : Nat, ∀ x ∈ aval m t, x ≤ i ∧ (x = i → (aval m t).getLast? = some i)) →
      ∀ t : Nat, aval (ps.foldl (CPS.deliveryStep docs) m) t =
        if i ∈ aval m t then aval m t
        else aval m t ++
          (if ∃ p ∈ ps, (docAt docs i).getD p.pos 0 = t then [i] else []) := by
  intro ps
  induction ps with
  | nil =>
    intro m _ _ t
    simp only [List.foldl_nil]
    by_cases h1 : i ∈ aval m t
    · rw [if_pos h1]
    · rw [if_neg h1, if_neg (by simp), List.append_nil]
  | cons p ps ih =>
    intro m hps hinv t
    obtain ⟨hpd, hpp⟩ := hps p (List.mem_cons_self _ _)
    have hstep : CPS.deliveryStep docs m p =
        CPS.addSupport m ((docAt docs i).getD p.pos 0) i := by
      unfold CPS.deliveryStep
      rw [hpd, if_pos hpp]
    have hinv1 : ∀ t' : Nat, ∀ x ∈ aval (CPS.addSupport m ((docAt docs i).getD p.pos 0) i) t',
        x ≤ i ∧ (x = i →
          (aval (CPS.addSupport m ((docAt docs i).getD p.pos 0) i) t').getLast? = some i) := by
      intro t' x hx
      rw [aval_addSupport] at hx ⊢
      by_cases ht : t' = (docAt docs i).getD p.pos 0
      · rw [if_pos ht] at hx ⊢
        unfold CPS.pushDoc at hx ⊢
        by_cases hl : (aval m ((docAt docs i).getD p.pos 0)).getLast? = some i
        · rw [if_pos hl] at hx ⊢
          exact ⟨(hinv _ x hx).1, fun _ => hl⟩
        · rw [if_neg hl] at hx ⊢
          refine ⟨?_, fun _ => List.getLast?_concat _⟩
          rcases List.mem_append.mp hx with h | h
          · exact (hinv _ x h).1
          · simp at h
            omega
      · rw [if_neg ht] at hx ⊢
        exact hinv t' x hx
    rw [List.foldl_cons, hstep,
      ih (CPS.addSupport m ((docAt docs i).getD p.pos 0) i)
        (fun q hq => hps q (List.mem_cons_of_mem _ hq)) hinv1 t]
    by_cases ht : t = (docAt docs i).getD p.pos 0
    · rw [aval_addSupport, if_pos ht, ht]
      by_cases hiu : i ∈ aval m ((docAt docs i).getD p.pos 0)
      · have hl := (hinv _ i hiu).2 rfl
        unfold CPS.pushDoc
        rw [if_pos hl, if_pos hiu, if_pos hiu]
      · have hl : (aval m ((docAt docs i).getD p.pos 0)).getLast? ≠ some i :=
          fun hc => hiu (mem_of_getLast?_eq hc)
        unfold CPS.pushDoc
        rw [if_neg hl]
        have hmem : i ∈ aval m ((docAt docs i).getD p.pos 0) ++ [i] :=
          List.mem_append_right _ (by simp)
        rw [if_pos hmem, if_neg hiu]
        have hex : ∃ q ∈ p :: ps,
            (docAt docs i).getD q.pos 0 = (docAt docs i).getD p.pos 0 :=
          ⟨p, List.mem_cons_self _ _, rfl⟩
        rw [if_pos hex]
    · rw [aval_addSupport, if_neg ht]
      have hex : (∃ q ∈ p :: ps, (docAt docs i).getD q.pos 0 = t) ↔
          (∃ q ∈ ps, (docAt docs i).getD q.pos 0 = t) := by
        constructor
        · rintro ⟨q, hq, hqt⟩
          rcases List.mem_cons.mp hq with rfl | hq'
          · exact absurd hqt.symm ht
          · exact ⟨q, hq', hqt⟩
        · rintro ⟨q, hq, hqt⟩
          exact ⟨q, List.mem_cons_of_mem _ hq, hqt⟩
      simp only [hex]

theorem occ_delivery_partial (docs : List (List Nat)) (pat : List Nat) :
    ∀ k t : Nat,
      aval (((List.range k).flatMap (CPS.dbBlock docs pat)).foldl (CPS.deliveryStep docs) []) t =
        (List.range k).filter fun i => docHas (docAt docs i) (pat ++ [t]) := by
  intro k
  induction k with
  | zero =>
    intro t
    simp [aval, alookup]
  | succ k ih =>
    intro t
    rw [List.range_succ, List.flatMap_append, List.foldl_append]
    have hsingle : ([k] : List Nat).flatMap (CPS.dbBlock docs pat) = CPS.dbBlock docs pat k := by
      simp
    rw [hsingle]
    have hps : ∀ p ∈ CPS.dbBlock docs pat k, p.doc_id = k ∧ p.pos < (docAt docs k).length := by
      intro p hp
      rw [mem_dbBlock] at hp
      obtain ⟨j, ⟨_, _, hlt⟩, rfl⟩ := hp
      exact ⟨rfl, hlt⟩
    have hinv : ∀ t' : Nat,
        ∀ x ∈ aval (((List.range k).flatMap (CPS.dbBlock docs pat)).foldl
          (CPS.deliveryStep docs) []) t',
        x ≤ k ∧ (x = k →
          (aval (((List.range k).flatMap (CPS.dbBlock docs pat)).foldl
            (CPS.deliveryStep docs) []) t').getLast? = some k) := by
      intro t' x hx
      rw [ih t'] at hx
      rw [List.mem_filter, List.mem_range] at hx
      exact ⟨by omega, fun he => absurd he (by omega)⟩
    rw [foldl_deliveryStep_block docs k (CPS.dbBlock docs pat k) _ hps hinv t]
    have hnotmem : k ∉ aval (((List.range k).flatMap (CPS.dbBlock docs pat)).foldl
        (CPS.deliveryStep docs) []) t := by
      rw [ih t]
      intro hc
      rw [List.mem_filter, List.mem_range] at hc
      omega
    rw [if_neg hnotmem, ih t, List.filter_append]
    congr 1
    have hiff : (∃ p ∈ CPS.dbBlock docs pat k, (docAt docs k).getD p.pos 0 = t) ↔
        docHas (docAt docs k) (pat ++ [t]) = true := by
      constructor
      · rintro ⟨p, hp, hpt⟩
        rw [mem_dbBlock] at hp
        obtain ⟨j, ⟨hj, hm, hlt⟩, rfl⟩ := hp
        rw [docHas_iff]
        refine ⟨j, hj, ?_⟩
        rw [matchesAt_snoc]
        exact ⟨hm, hlt, hpt⟩
      · intro hc
        rw [docHas_iff] at hc
        obtain ⟨j, hj, hm⟩ := hc
        rw [matchesAt_snoc] at hm
        obtain ⟨h1, h2, h3⟩ := hm
        refine ⟨⟨k, j + pat.length, j⟩, ?_, h3⟩
        rw [mem_dbBlock]
        exact ⟨j, ⟨hj, h1, h2⟩, rfl⟩
    by_cases hc : docHas (docAt docs k) (pat ++ [t]) = true
    · rw [if_pos (hiff.mpr hc)]
      simp [hc]
    · rw [if_neg (fun he => hc (hiff.mp he))]
      have : docHas (docAt docs k) (pat ++ [t]) = false := by
        cases hb : docHas (docAt docs k) (pat ++ [t])
        · rfl
        · exact absurd hb hc
      simp [this]

theorem aval_occ_delivery_dbOf (docs : List (List Nat)) (pat : List Nat) (t : Nat) :
    aval (CPS.occ_delivery docs (CPS.dbOf docs pat)) t = suppList docs (pat ++ [t]) := by
  unfold CPS.occ_delivery CPS.dbOf suppList
  exact occ_delivery_partial docs pat docs.length t

theorem occ_delivery_keys_nodup (docs : List (List Nat)) (db : List CPS.Projection) :
    (akeys (CPS.occ_delivery docs db)).Nodup := by
  unfold CPS.occ_delivery
  have H : ∀ (l : List CPS.Projection) (m : List (Nat × List Nat)),
      (akeys m).Nodup → (akeys (l.foldl (CPS.deliveryStep docs) m)).Nodup := by
    intro l
    induction l with
    | nil =>
      intro m h
      simpa
    | cons p l ihl =>
      intro m h
      rw [List.foldl_cons]
      apply ihl
      unfold CPS.deliveryStep
      by_cases hc : p.pos < (docAt docs p.doc_id).length
      · rw [if_pos hc]
        exact akeys_addSupport_nodup h _ _
      · rw [if_neg hc]
        exact h
  exact H db [] (by simp [akeys])

theorem occ_delivery_vals_ne_nil (docs : List (List Nat)) (db : List CPS.Projection) :
    ∀ q ∈ CPS.occ_delivery docs db, q.2 ≠ [] := by
  unfold CPS.occ_delivery
  have H : ∀ (l : List CPS.Projection) (m : List (Nat × List Nat)),
      (∀ q ∈ m, q.2 ≠ []) → (∀ q ∈ l.foldl (CPS.deliveryStep docs) m, q.2 ≠ []) := by
    intro l
    induction l with
    | nil =>
      intro m h
      exact h
    | cons p l ihl =>
      intro m h
      rw [List.foldl_cons]
      apply ihl
      unfold CPS.deliveryStep
      by_cases hc : p.pos < (docAt docs p.doc_id).length
      · rw [if_pos hc]
        exact addSupport_vals_ne_nil h _ _
      · rw [if_neg hc]
        exact h
  exact H db [] (by simp)

theorem mem_occ_delivery_dbOf {docs : List (List Nat)} {pat : List Nat} {t : Nat} {ds : List Nat}
    (h : (t, ds) ∈ CPS.occ_delivery docs (CPS.dbOf docs pat)) :
    ds = suppList docs (pat ++ [t]) := by
  have hl := alookup_of_mem_nodup (occ_delivery_keys_nodup docs _) h
  have hv : aval (CPS.occ_delivery docs (CPS.dbOf docs pat)) t = ds := by
    unfold aval
    rw [hl]
    rfl
  rw [← hv, aval_occ_delivery_dbOf]

theorem suppList_mem_occ_delivery {docs : List (List Nat)} {pat : List Nat} {t : Nat}
    (h : suppList docs (pat ++ [t]) ≠ []) :
    (t, suppList docs (pat ++ [t])) ∈ CPS.occ_delivery docs (CPS.dbOf docs pat) := by
  have hav := aval_occ_delivery_dbOf docs pat t
  have hsome := alookup_eq_some_aval
    (m := CPS.occ_delivery docs (CPS.dbOf docs pat)) (k := t) (by rw [hav]; exact h)
  rw [hav] at hsome
  exact mem_of_alookup hsome

end DeliveryLemmas

section NextDbLemmas

theorem filterMap_if_eq_map_filter {α β : Type} (l : List α) (q : α → Prop) [DecidablePred q]
    (g : α → β) :
    l.filterMap (fun a => if q a then some (g a) else none) =
      (l.filter fun a => decide (q a)).map g := by
  induction l with
  | nil => rfl
  | cons a l ihl =>
    rw [List.filterMap_cons, List.filter_cons]
    by_cases h : q a
    · rw [if_pos h]
      simp only [h, decide_eq_true_eq, if_pos]
      rw [List.map_cons, ihl]
    · rw [if_neg h]
      simp only [h, decide_eq_true_eq]
      rw [if_neg (by simp [h]), ihl]

theorem filterMap_flatMap {α β γ : Type} (l : List α) (g : α → List β) (f : β → Option γ) :
    (l.flatMap g).filterMap f = l.flatMap fun a => (g a).filterMap f := by
  induction l with
  | nil => rfl
  | cons a l ihl =>
    rw [List.flatMap_cons, List.flatMap_cons, List.filterMap_append, ihl]

theorem nextDbStep_dbOf (docs : List (List Nat)) (pat : List Nat) (w : Nat) :
    CPS.nextDbStep docs w (CPS.dbOf docs pat) = CPS.dbOf docs (pat ++ [w]) := by
  unfold CPS.nextDbStep CPS.dbOf
  rw [filterMap_flatMap]
  apply List.flatMap_congr
  intro i _
  unfold CPS.dbBlock
  rw [List.filterMap_map]
  have hcomp :
      ((fun proj : CPS.Projection =>
          if proj.pos < (docAt docs proj.doc_id).length ∧
              (docAt docs proj.doc_id).getD proj.pos 0 = w ∧
              proj.pos + 1 < (docAt docs proj.doc_id).length then
            some (⟨proj.doc_id, proj.pos + 1, proj.origin⟩ : CPS.Projection)
          else none) ∘ fun j => (⟨i, j + pat.length, j⟩ : CPS.Projection)) =
        fun j =>
          if j + pat.length < (docAt docs i).length ∧
              (docAt docs i).getD (j + pat.length) 0 = w ∧
              j + pat.length + 1 < (docAt docs i).length then
            some (⟨i, j + pat.length + 1, j⟩ : CPS.Projection)
          else none := by
    funext j
    rfl
  rw [hcomp, filterMap_if_eq_map_filter, List.filter_filter]
  have hpred : ∀ j ∈ List.range (docAt docs i).length,
      (decide (j + pat.length < (docAt docs i).length ∧
          (docAt docs i).getD (j + pat.length) 0 = w ∧
          j + pat.length + 1 < (docAt docs i).length) &&
        (decide (matchesAt (docAt docs i) pat j) &&
          decide (j + pat.length < (docAt docs i).length))) =
      (decide (matchesAt (docAt docs i) (pat ++ [w]) j) &&
        decide (j + (pat ++ [w]).length < (docAt docs i).length)) := by
    intro j _
    rw [Bool.eq_iff_iff]
    simp only [Bool.and_eq_true, decide_eq_true_eq]
    rw [matchesAt_snoc, List.length_append]
    constructor
    · rintro ⟨⟨h1, h2, h3⟩, h4, h5⟩
      exact ⟨⟨h4, h1, h2⟩, by simpa using h3⟩
    · rintro ⟨⟨h4, h1, h2⟩, h3⟩
      refine ⟨⟨h1, h2, by simpa using h3⟩, h4, h1⟩
  rw [List.filter_congr hpred]
  apply List.map_congr_left
  intro j _
  simp [List.length_append, Nat.add_assoc]

end NextDbLemmas

section FuelLemmas

theorem le_foldr_max {l : List Nat} {x : Nat} (hx : x ∈ l) : x ≤ l.foldr max 0 := by
  induction l with
  | nil => simp at hx
  | cons a l ihl =>
    rcases List.mem_cons.mp hx with rfl | h
    · exact le_max_left _ _
    · exact le_trans (ihl h) (le_max_right _ _)

theorem foldr_max_le {l : List Nat} {b : Nat} (h : ∀ x ∈ l, x ≤ b) : l.foldr max 0 ≤ b := by
  induction l with
  | nil => exact Nat.zero_le _
  | cons a l ihl =>
    exact max_le (h a (List.mem_cons_self _ _))
      (ihl fun x hx => h x (List.mem_cons_of_mem _ hx))

theorem mem_nextDbStep {docs : List (List Nat)} {tok : Nat} {db : List CPS.Projection}
    {pr : CPS.Projection} (h : pr ∈ CPS.nextDbStep docs tok db) :
    ∃ p ∈ db, pr.doc_id = p.doc_id ∧ pr.pos = p.pos + 1 ∧
      p.pos + 1 < (docAt docs p.doc_id).length := by
  unfold CPS.nextDbStep at h
  rw [List.mem_filterMap] at h
  obtain ⟨p, hp, hf⟩ := h
  by_cases hc : p.pos < (docAt docs p.doc_id).length ∧
      (docAt docs p.doc_id).getD p.pos 0 = tok ∧ p.pos + 1 < (docAt docs p.doc_id).length
  · rw [if_pos hc] at hf
    injection hf with hf
    rw [← hf]
    exact ⟨p, hp, rfl, rfl, hc.2.2⟩
  · rw [if_neg hc] at hf
    cases hf

theorem remBound_mem_le {docs : List (List Nat)} {db : List CPS.Projection}
    {p : CPS.Projection} (hp : p ∈ db) :
    (docAt docs p.doc_id).length - p.pos ≤ remBound docs db := by
  unfold remBound
  exact le_foldr_max (List.mem_map_of_mem _ hp)

theorem remBound_nextDbStep_lt {docs : List (List Nat)} {tok : Nat} {db : List CPS.Projection}
    (hne : CPS.nextDbStep docs tok db ≠ []) :
    remBound docs (CPS.nextDbStep docs tok db) < remBound docs db := by
  have hbig : 2 ≤ remBound docs db := by
    obtain ⟨pr, hpr⟩ := List.exists_mem_of_ne_nil _ hne
    obtain ⟨p, hp, _, _, hlt⟩ := mem_nextDbStep hpr
    have := @remBound_mem_le docs _ _ hp
    omega
  have hle : remBound docs (CPS.nextDbStep docs tok db) ≤ remBound docs db - 1 := by
    unfold remBound
    apply foldr_max_le
    intro x hx
    rw [List.mem_map] at hx
    obtain ⟨pr, hpr, rfl⟩ := hx
    obtain ⟨p, hp, hd, hpos, hlt⟩ := mem_nextDbStep hpr
    have := @remBound_mem_le docs _ _ hp
    unfold remBound at this
    rw [hd, hpos]
    omega
  omega

theorem remBound_initial_le (docs : List (List Nat)) :
    remBound docs (CPS.initial_db docs) ≤ maxDocLen docs := by
  unfold remBound
  apply foldr_max_le
  intro x hx
  rw [List.mem_map] at hx
  obtain ⟨pr, hpr, rfl⟩ := hx
  have hdoc : (docAt docs pr.doc_id).length ≤ maxDocLen docs := by
    unfold docAt maxDocLen
    by_cases h : pr.doc_id < docs.length
    · have hmem : docs.getD pr.doc_id [] ∈ docs := by
        rw [List.getD_eq_getElem?_getD, List.getElem?_eq_getElem h]
        exact List.getElem_mem h
      exact le_foldr_max (List.mem_map_of_mem _ hmem)
    · rw [List.getD_eq_getElem?_getD, List.getElem?_eq_none (by omega)]
      simp
  omega

theorem mine_recursive_fuel (docs : List (List Nat)) (min_docs min_length : Nat)
    (mode : CPS.MiningMode) :
    ∀ f₁ f₂ (db : List CPS.Projection) (pfx : List Nat) (s : Nat),
      remBound docs db < f₁ → remBound docs db < f₂ →
      CPS.mine_recursive docs min_docs min_length mode f₁ db pfx s =
        CPS.mine_recursive docs min_docs min_length mode f₂ db pfx s := by
  intro f₁
  induction f₁ using Nat.strong_induction_on with
  | _ f₁ ih =>
    intro f₂ db pfx s h1 h2
    match f₁, h1 with
    | a + 1, h1 =>
      match f₂, h2 with
      | b + 1, h2 =>
        simp only [CPS.mine_recursive]
        congr 1
        apply List.flatMap_congr
        intro p _
        by_cases hfreq : min_docs ≤ p.2.length
        · rw [if_pos hfreq, if_pos hfreq]
          by_cases hemp : (CPS.nextDbStep docs p.1 db).isEmpty
          · rw [if_pos hemp, if_pos hemp]
          · rw [if_neg hemp, if_neg hemp]
            have hne : CPS.nextDbStep docs p.1 db ≠ [] := by
              intro hc
              rw [hc] at hemp
              simp at hemp
            have hlt := @remBound_nextDbStep_lt docs p.1 db hne
            exact ih a (by omega) b _ _ _ (by omega) (by omega)
        · rw [if_neg hfreq, if_neg hfreq]

end FuelLemmas

section MineRecLemmas

theorem dedup_dbOf_length_le (docs : List (List Nat)) (pat : List Nat) :
    (((CPS.dbOf docs pat).map CPS.Projection.doc_id).dedup).length ≤
      (suppList docs pat).length := by
  apply List.Subperm.length_le
  apply List.Nodup.subperm (List.nodup_dedup _)
  intro x hx
  rw [List.mem_dedup, List.mem_map] at hx
  obtain ⟨pr, hpr, rfl⟩ := hx
  exact dbOf_doc_mem_suppList hpr

theorem mine_recursive_sound (docs : List (List Nat)) (min_docs min_length : Nat)
    (mode : CPS.MiningMode) :
    ∀ (fuel : Nat) (pat : List Nat) (s : Nat),
      s = (suppList docs pat).length →
      (pat = [] ∨ (1 ≤ s ∧ min_docs ≤ s)) →
      ∀ ph ∈ CPS.mine_recursive docs min_docs min_length mode fuel (CPS.dbOf docs pat) pat s,
        ph.support = (suppList docs ph.tokens).length ∧
        ph.occs = ((CPS.dbOf docs ph.tokens).map CPS.Projection.doc_id).dedup ∧
        min_length ≤ ph.tokens.length ∧
        (ph.tokens ≠ [] → 1 ≤ ph.support ∧ min_docs ≤ ph.support) ∧
        (mode = CPS.MODE_CLOSED → ph.tokens ≠ [] →
          ∀ w, (suppList docs (ph.tokens ++ [w])).length ≠ ph.support) := by
  intro fuel
  induction fuel with
  | zero =>
    intro pat s _ _ ph hph
    simp [CPS.mine_recursive] at hph
  | succ fuel ih =>
    intro pat s hs hbound ph hph
    simp only [CPS.mine_recursive] at hph
    rw [List.mem_append] at hph
    rcases hph with hout | hrec
    · split at hout
      · next hcond =>
        rw [List.mem_singleton] at hout
        subst hout
        refine ⟨hs, rfl, hcond.1, ?_, ?_⟩
        · intro hne
          rcases hbound with h | h
          · exact absurd h hne
          · exact h
        · intro hm hne w
          rcases hbound with h | h
          · exact absurd h hne
          · intro hceq
            have hs1 : 1 ≤ s := h.1
            have hceq2 : (suppList docs (pat ++ [w])).length = s := hceq
            have hsupp_ne : suppList docs (pat ++ [w]) ≠ [] := by
              apply List.length_pos.mp
              omega
            have hitem := @suppList_mem_occ_delivery docs pat w hsupp_ne
            have hany : (CPS.occ_delivery docs (CPS.dbOf docs pat)).any
                (fun p => decide (min_docs ≤ p.2.length) && decide (p.2.length = s)) = true := by
              rw [List.any_eq_true]
              refine ⟨(w, suppList docs (pat ++ [w])), hitem, ?_⟩
              simp only [Bool.and_eq_true, decide_eq_true_eq]
              exact ⟨by omega, hceq2⟩
            rw [hm] at hcond
            have hfalse := hcond.2
            unfold CPS.shouldOut at hfalse
            rw [hany] at hfalse
            simp at hfalse
      · next =>
        simp at hout
    · rw [List.mem_flatMap] at hrec
      obtain ⟨p, hpmem, hpin⟩ := hrec
      obtain ⟨t, ds⟩ := p
      by_cases hfreq : min_docs ≤ ds.length
      · rw [if_pos hfreq] at hpin
        by_cases hemp : (CPS.nextDbStep docs t (CPS.dbOf docs pat)).isEmpty
        · rw [if_pos hemp] at hpin
          simp at hpin
        · rw [if_neg hemp] at hpin
          have hds : ds = suppList docs (pat ++ [t]) := mem_occ_delivery_dbOf hpmem
          rw [nextDbStep_dbOf] at hpin
          have hne : ds ≠ [] := occ_delivery_vals_ne_nil docs _ (t, ds) hpmem
          exact ih (pat ++ [t]) ds.length (by rw [hds])
            (Or.inr ⟨List.length_pos.mpr hne, hfreq⟩) ph hpin
      · rw [if_neg hfreq] at hpin
        simp at hpin

theorem mine_recursive_complete (docs : List (List Nat)) (min_docs min_length : Nat) :
    ∀ (ext : List Nat) (fuel : Nat) (pat : List Nat) (s : Nat),
      min_length ≤ (pat ++ ext).length →
      min_docs ≤ (suppList docs (pat ++ ext)).length →
      CPS.Extendable docs (pat ++ ext) →
      ext.length < fuel →
      (pat ++ ext) ∈ (CPS.mine_recursive docs min_docs min_length CPS.MODE_ALL fuel
        (CPS.dbOf docs pat) pat s).map CPS.Phrase.tokens := by
  intro ext
  induction ext with
  | nil =>
    intro fuel pat s hlen _ _ hfuel
    match fuel, hfuel with
    | f + 1, _ =>
      simp only [CPS.mine_recursive]
      rw [List.map_append, List.mem_append]
      left
      rw [if_pos ⟨by simpa using hlen, rfl⟩]
      simp
  | cons w ext ih =>
    intro fuel pat s hlen hsupp hext hfuel
    match fuel, hfuel with
    | f + 1, hfuel =>
      simp only [CPS.mine_recursive]
      rw [List.map_append, List.mem_append]
      right
      have heq : (pat ++ [w]) ++ ext = pat ++ (w :: ext) := by simp
      have hmono : (suppList docs (pat ++ (w :: ext))).length ≤
          (suppList docs (pat ++ [w])).length := by
        rw [← heq]
        exact suppList_append_le docs (pat ++ [w]) ext
      obtain ⟨i, hi, j, hm, hlt⟩ := hext
      have hm1 : matchesAt (docAt docs i) (pat ++ [w]) j := by
        refine @matchesAt_of_append _ _ ext _ ?_
        rw [heq]
        exact hm
      have hjlt : j < (docAt docs i).length := by
        have hl1 : (pat ++ (w :: ext)).length = pat.length + ext.length + 1 := by
          simp
          omega
        omega
      have hw_mem_supp : i ∈ suppList docs (pat ++ [w]) :=
        mem_suppList.mpr ⟨hi, j, hjlt, hm1⟩
      have hsne : suppList docs (pat ++ [w]) ≠ [] := by
        intro hc
        rw [hc] at hw_mem_supp
        simp at hw_mem_supp
      have hitem := @suppList_mem_occ_delivery docs pat w hsne
      rw [List.map_flatMap, List.mem_flatMap]
      refine ⟨(w, suppList docs (pat ++ [w])), hitem, ?_⟩
      have hfreq : min_docs ≤ (suppList docs (pat ++ [w])).length := le_trans hsupp hmono
      rw [if_pos hfreq, nextDbStep_dbOf]
      have hdb_ne : CPS.dbOf docs (pat ++ [w]) ≠ [] := by
        have hmem : (⟨i, j + (pat ++ [w]).length, j⟩ : CPS.Projection) ∈
            CPS.dbOf docs (pat ++ [w]) := by
          rw [mem_dbOf]
          refine ⟨hi, hm1, ?_, rfl⟩
          show j + (pat ++ [w]).length < (docAt docs i).length
          have hl1 : (pat ++ [w]).length = pat.length + 1 := by simp
          have hl2 : (pat ++ (w :: ext)).length = pat.length + (ext.length + 1) := by simp
          omega
        intro hc
        rw [hc] at hmem
        simp at hmem
      rw [if_neg (by simpa using hdb_ne)]
      have := ih f (pat ++ [w]) (suppList docs (pat ++ [w])).length
        (by rw [heq]; exact hlen) (by rw [heq]; exact hsupp)
        (by rw [heq]; exact ⟨i, hi, j, hm, hlt⟩) (by simp at hfuel; omega)
      rw [heq] at this
      exact this

end MineRecLemmas

section GmeAssocLemmas

theorem assocAppend_pres {κ α : Type} [DecidableEq κ] {R : κ → α → Prop}
    {m : List (κ × List α)} (hm : ∀ q ∈ m, ∀ v ∈ q.2, R q.1 v) {k : κ} {a : α}
    (ha : R k a) : ∀ q ∈ GME.assocAppend m k a, ∀ v ∈ q.2, R q.1 v := by
  induction m with
  | nil =>
    intro q hq v hv
    unfold GME.assocAppend at hq
    simp at hq
    subst hq
    simp at hv
    subst hv
    exact ha
  | cons p rest ih =>
    obtain ⟨k', vs⟩ := p
    intro q hq v hv
    unfold GME.assocAppend at hq
    by_cases hk : k' = k
    · rw [if_pos hk] at hq
      rcases List.mem_cons.mp hq with h | h
      · subst h
        rcases List.mem_append.mp hv with h2 | h2
        · exact hm (k', vs) (by simp) v h2
        · simp at h2
          subst h2
          rw [hk]
          exact ha
      · exact hm q (List.mem_cons_of_mem _ h) v hv
    · rw [if_neg hk] at hq
      rcases List.mem_cons.mp hq with h | h
      · subst h
        exact hm (k', vs) (by simp) v hv
      · exact ih (fun q' hq' => hm q' (List.mem_cons_of_mem _ hq')) q h v hv

theorem take_length_take {α : Type} (l : List α) (n : Nat) :
    l.take (l.take n).length = l.take n := by
  rw [List.length_take]
  by_cases h : n ≤ l.length
  · rw [Nat.min_eq_left h]
  · have h2 : l.length ≤ n := le_of_not_le h
    rw [Nat.min_eq_right h2, List.take_length, List.take_of_length_le h2]

theorem seed_key_occFits (docs : List (List Nat)) (n d p : Nat)
    (hp : p ≤ (docAt docs d).length) :
    GME.OccFits docs (((docAt docs d).drop p).take n) ⟨d, p⟩ := by
  unfold GME.OccFits
  constructor
  · simp only [List.length_take, List.length_drop]
    omega
  · unfold matchesAt
    exact take_length_take _ _

theorem seedOccs_inv (docs : List (List Nat)) (n : Nat) :
    ∀ q ∈ GME.seedOccs docs n, ∀ o ∈ q.2, GME.OccFits docs q.1 o := by
  unfold GME.seedOccs
  have hinnner : ∀ (d : Nat) (ps : List Nat) (m : List (List Nat × List GME.Occurrence)),
      (∀ p ∈ ps, p ≤ (docAt docs d).length) →
      (∀ q ∈ m, ∀ o ∈ q.2, GME.OccFits docs q.1 o) →
      ∀ q ∈ ps.foldl
        (fun m2 p => GME.assocAppend m2 (((docAt docs d).drop p).take n) ⟨d, p⟩) m,
        ∀ o ∈ q.2, GME.OccFits docs q.1 o := by
    intro d ps
    induction ps with
    | nil =>
      intro m _ hm
      exact hm
    | cons p ps ihp =>
      intro m hps hm
      rw [List.foldl_cons]
      exact ihp _ (fun p' hp' => hps p' (List.mem_cons_of_mem _ hp'))
        (assocAppend_pres hm (seed_key_occFits docs n d p (hps p (List.mem_cons_self _ _))))
  have houter : ∀ (ds : List Nat) (m : List (List Nat × List GME.Occurrence)),
      (∀ q ∈ m, ∀ o ∈ q.2, GME.OccFits docs q.1 o) →
      ∀ q ∈ ds.foldl
        (fun m d =>
          let dl := docAt docs d
          if dl.length < n then m
          else
            (List.range (dl.length - n + 1)).foldl
              (fun m2 p => GME.assocAppend m2 ((dl.drop p).take n) ⟨d, p⟩) m) m,
        ∀ o ∈ q.2, GME.OccFits docs q.1 o := by
    intro ds
    induction ds with
    | nil =>
      intro m hm
      exact hm
    | cons d ds ihd =>
      intro m hm
      rw [List.foldl_cons]
      apply ihd
      by_cases hlen : (docAt docs d).length < n
      · rw [if_pos hlen]
        exact hm
      · rw [if_neg hlen]
        apply hinnner d
        · intro p hp
          rw [List.mem_range] at hp
          omega
        · exact hm
  exact houter (List.range docs.length) [] (by simp)

end GmeAssocLemmas

section GmeInvLemmas

theorem candidatesOf_inv (docs : List (List Nat)) (min_docs n : Nat) :
    ∀ c ∈ GME.candidatesOf docs min_docs n, GME.CandInv docs min_docs c := by
  intro c hc
  unfold GME.candidatesOf at hc
  rw [List.mem_filterMap] at hc
  obtain ⟨q, hq, hf⟩ := hc
  by_cases hcond : min_docs ≤ GME.uniqDocs q.2
  · rw [if_pos hcond] at hf
    injection hf with hf
    subst hf
    exact ⟨fun o ho => seedOccs_inv docs n q hq o ho, rfl, hcond⟩
  · rw [if_neg hcond] at hf
    cases hf

theorem sortCandidates_inv (docs : List (List Nat)) (min_docs : Nat)
    {cs : List GME.Phrase} (h : ∀ c ∈ cs, GME.CandInv docs min_docs c) :
    ∀ c ∈ GME.sortCandidates cs, GME.CandInv docs min_docs c := by
  intro c hc
  unfold GME.sortCandidates at hc
  exact h c ((List.perm_insertionSort _ cs).mem_iff.mp hc)

theorem nextWordOccs_inv (docs : List (List Nat)) (cand : GME.Phrase) :
    ∀ q ∈ GME.nextWordOccs docs cand, ∀ o ∈ q.2,
      o ∈ cand.occs ∧ o.pos + cand.tokens.length < (docAt docs o.doc_id).length ∧
        (docAt docs o.doc_id).getD (o.pos + cand.tokens.length) 0 = q.1 := by
  unfold GME.nextWordOccs
  have H : ∀ (os : List GME.Occurrence) (m : List (Nat × List GME.Occurrence)),
      (∀ o ∈ os, o ∈ cand.occs) →
      (∀ q ∈ m, ∀ o ∈ q.2,
        o ∈ cand.occs ∧ o.pos + cand.tokens.length < (docAt docs o.doc_id).length ∧
          (docAt docs o.doc_id).getD (o.pos + cand.tokens.length) 0 = q.1) →
      ∀ q ∈ os.foldl
        (fun m o =>
          let dl := docAt docs o.doc_id
          let np := o.pos + cand.tokens.length
          if np < dl.length then GME.assocAppend m (dl.getD np 0) o else m) m,
        ∀ o ∈ q.2,
          o ∈ cand.occs ∧ o.pos + cand.tokens.length < (docAt docs o.doc_id).length ∧
            (docAt docs o.doc_id).getD (o.pos + cand.tokens.length) 0 = q.1 := by
    intro os
    induction os with
    | nil =>
      intro m _ hm
      exact hm
    | cons o os iho =>
      intro m hos hm
      rw [List.foldl_cons]
      apply iho _ (fun o' ho' => hos o' (List.mem_cons_of_mem _ ho'))
      by_cases hnp : o.pos + cand.tokens.length < (docAt docs o.doc_id).length
      · simp only [if_pos hnp]
        exact assocAppend_pres
          (R := fun k o' => o' ∈ cand.occs ∧
            o'.pos + cand.tokens.length < (docAt docs o'.doc_id).length ∧
            (docAt docs o'.doc_id).getD (o'.pos + cand.tokens.length) 0 = k)
          hm ⟨hos o (List.mem_cons_self _ _), hnp, rfl⟩
      · simp only [if_neg hnp]
        exact hm
  exact H cand.occs [] (fun o ho => ho) (by simp)

theorem chooseBest_fold_cases (min_docs : Nat) :
    ∀ (l : List (Nat × List GME.Occurrence)) (acc : GME.Best),
      l.foldl
        (fun acc p =>
          let ud := GME.uniqDocs p.2
          if min_docs ≤ ud ∧ acc.maxSupport ≤ ud then ⟨p.1, ud, p.2⟩ else acc) acc = acc ∨
      ∃ p ∈ l,
        l.foldl
          (fun acc p =>
            let ud := GME.uniqDocs p.2
            if min_docs ≤ ud ∧ acc.maxSupport ≤ ud then ⟨p.1, ud, p.2⟩ else acc) acc =
          ⟨p.1, GME.uniqDocs p.2, p.2⟩ ∧ min_docs ≤ GME.uniqDocs p.2 := by
  intro l
  induction l with
  | nil =>
    intro acc
    left
    rfl
  | cons p l ihl =>
    intro acc
    rw [List.foldl_cons]
    by_cases hcond : min_docs ≤ GME.uniqDocs p.2 ∧ acc.maxSupport ≤ GME.uniqDocs p.2
    · simp only [if_pos hcond]
      rcases ihl ⟨p.1, GME.uniqDocs p.2, p.2⟩ with h | ⟨q, hq, hfold, hfr⟩
      · right
        exact ⟨p, List.mem_cons_self _ _, h, hcond.1⟩
      · right
        exact ⟨q, List.mem_cons_of_mem _ hq, hfold, hfr⟩
    · simp only [if_neg hcond]
      rcases ihl acc with h | ⟨q, hq, hfold, hfr⟩
      · left
        exact h
      · right
        exact ⟨q, List.mem_cons_of_mem _ hq, hfold, hfr⟩

theorem chooseBest_cases (min_docs : Nat) (items : List (Nat × List GME.Occurrence)) :
    GME.chooseBest min_docs items = ⟨0, 0, []⟩ ∨
      ∃ p ∈ items, GME.chooseBest min_docs items = ⟨p.1, GME.uniqDocs p.2, p.2⟩ ∧
        min_docs ≤ GME.uniqDocs p.2 := by
  unfold GME.chooseBest
  exact chooseBest_fold_cases min_docs items ⟨0, 0, []⟩

theorem extendStep_inv (docs : List (List Nat)) (min_docs : Nat) {c : GME.Phrase}
    (h : GME.CandInv docs min_docs c) :
    GME.CandInv docs min_docs (GME.extendStep docs min_docs c) := by
  unfold GME.extendStep
  rcases chooseBest_cases min_docs (GME.nextWordOccs docs c) with hinit | ⟨p, hp, heq, hfreq⟩
  · rw [hinit]
    simp only [Nat.lt_irrefl, if_false]
    exact h
  · rw [heq]
    by_cases hpos : 0 < GME.uniqDocs p.2
    · simp only [if_pos hpos]
      refine ⟨?_, rfl, hfreq⟩
      intro o ho
      obtain ⟨hoc, hlt, htok⟩ := nextWordOccs_inv docs c p hp o ho
      constructor
      · simp only [List.length_append, List.length_singleton]
        omega
      · rw [matchesAt_snoc]
        exact ⟨(h.1 o hoc).2, hlt, htok⟩
    · simp only [if_neg hpos]
      exact h

theorem extendLoop_inv (docs : List (List Nat)) (min_docs : Nat) :
    ∀ (fuel : Nat) {c : GME.Phrase}, GME.CandInv docs min_docs c →
      GME.CandInv docs min_docs (GME.extendLoop docs min_docs fuel c) := by
  intro fuel
  induction fuel with
  | zero =>
    intro c h
    exact h
  | succ fuel ih =>
    intro c h
    have hstep := extendStep_inv docs min_docs h
    unfold GME.extendStep at hstep
    unfold GME.extendLoop
    by_cases hpos : 0 < (GME.chooseBest min_docs (GME.nextWordOccs docs c)).maxSupport
    · rw [if_pos hpos]
      rw [if_pos hpos] at hstep
      exact ih hstep
    · rw [if_neg hpos]
      exact h

theorem mineLoop_inv (docs : List (List Nat)) (min_docs fuel : Nat) :
    ∀ (cs : List GME.Phrase) (pm : List (List Bool)),
      (∀ c ∈ cs, GME.CandInv docs min_docs c) →
      ∀ c ∈ GME.mineLoop docs min_docs fuel cs pm, GME.CandInv docs min_docs c := by
  intro cs
  induction cs with
  | nil =>
    intro pm _ c hc
    simp [GME.mineLoop] at hc
  | cons c0 cs ihc =>
    intro pm hcs c hc
    unfold GME.mineLoop at hc
    by_cases hskip : c0.occs.all fun o => (pm.getD o.doc_id []).getD o.pos false
    · rw [if_pos hskip] at hc
      exact ihc pm (fun c' hc' => hcs c' (List.mem_cons_of_mem _ hc')) c hc
    · rw [if_neg hskip] at hc
      rcases List.mem_cons.mp hc with h | h
      · subst h
        exact extendLoop_inv docs min_docs fuel (hcs c0 (List.mem_cons_self _ _))
      · exact ihc _ (fun c' hc' => hcs c' (List.mem_cons_of_mem _ hc')) c h

theorem mine_inv (docs : List (List Nat)) (min_docs n : Nat) :
    ∀ c ∈ GME.mine docs min_docs n, GME.CandInv docs min_docs c := by
  unfold GME.mine
  exact mineLoop_inv docs min_docs (maxDocLen docs + 1) _ _
    (sortCandidates_inv docs min_docs (candidatesOf_inv docs min_docs n))

end GmeInvLemmas

section ChooseBestLemmas

theorem chooseBest_append_singleton (min_docs : Nat)
    (l : List (Nat × List GME.Occurrence)) (p : Nat × List GME.Occurrence) :
    GME.chooseBest min_docs (l ++ [p]) =
      if min_docs ≤ GME.uniqDocs p.2 ∧
          (GME.chooseBest min_docs l).maxSupport ≤ GME.uniqDocs p.2 then
        ⟨p.1, GME.uniqDocs p.2, p.2⟩
      else GME.chooseBest min_docs l := by
  unfold GME.chooseBest
  rw [List.foldl_append]
  rfl

theorem chooseBest_last_max (min_docs : Nat) :
    ∀ items : List (Nat × List GME.Occurrence),
      (∃ p ∈ items, min_docs ≤ GME.uniqDocs p.2) →
      ∃ l₁ p l₂, items = l₁ ++ p :: l₂ ∧
        GME.chooseBest min_docs items = ⟨p.1, GME.uniqDocs p.2, p.2⟩ ∧
        min_docs ≤ GME.uniqDocs p.2 ∧
        (∀ q ∈ items, min_docs ≤ GME.uniqDocs q.2 →
          GME.uniqDocs q.2 ≤ GME.uniqDocs p.2) ∧
        (∀ q ∈ l₂, min_docs ≤ GME.uniqDocs q.2 →
          GME.uniqDocs q.2 < GME.uniqDocs p.2) := by
  intro items
  induction items using List.reverseRecOn with
  | nil =>
    intro hex
    simp at hex
  | append_singleton l p ih =>
    intro hex
    by_cases hel : ∃ q ∈ l, min_docs ≤ GME.uniqDocs q.2
    · obtain ⟨l₁, r, l₂, hsplit, hres, hfr, hmax, hstrict⟩ := ih hel
      have hM : (GME.chooseBest min_docs l).maxSupport = GME.uniqDocs r.2 := by
        rw [hres]
      by_cases hcond : min_docs ≤ GME.uniqDocs p.2 ∧
          (GME.chooseBest min_docs l).maxSupport ≤ GME.uniqDocs p.2
      · refine ⟨l, p, [], by simp, ?_, hcond.1, ?_, by simp⟩
        · rw [chooseBest_append_singleton, if_pos hcond]
        · intro q hq hqe
          rcases List.mem_append.mp hq with h | h
          · have h1 := hmax q h hqe
            have h2 := hcond.2
            rw [hM] at h2
            omega
          · simp at h
            subst h
            exact le_refl _
      · refine ⟨l₁, r, l₂ ++ [p], ?_, ?_, hfr, ?_, ?_⟩
        · rw [hsplit]
          simp
        · rw [chooseBest_append_singleton, if_neg hcond]
          exact hres
        · intro q hq hqe
          rcases List.mem_append.mp hq with h | h
          · exact hmax q h hqe
          · simp at h
            rw [h] at hqe ⊢
            have hlt : GME.uniqDocs p.2 < GME.uniqDocs r.2 := by
              rw [← hM]
              rcases Decidable.em ((GME.chooseBest min_docs l).maxSupport ≤
                GME.uniqDocs p.2) with h2 | h2
              · exact absurd ⟨hqe, h2⟩ hcond
              · omega
            omega
        · intro q hq hqe
          rcases List.mem_append.mp hq with h | h
          · exact hstrict q h hqe
          · simp at h
            rw [h] at hqe ⊢
            rw [← hM]
            rcases Decidable.em ((GME.chooseBest min_docs l).maxSupport ≤
              GME.uniqDocs p.2) with h2 | h2
            · exact absurd ⟨hqe, h2⟩ hcond
            · omega
    · have hinit : GME.chooseBest min_docs l = ⟨0, 0, []⟩ := by
        rcases chooseBest_cases min_docs l with h | ⟨q, hq, _, hfr⟩
        · exact h
        · exact absurd ⟨q, hq, hfr⟩ hel
      have hep : min_docs ≤ GME.uniqDocs p.2 := by
        obtain ⟨q, hq, hqe⟩ := hex
        rcases List.mem_append.mp hq with h | h
        · exact absurd ⟨q, h, hqe⟩ hel
        · simp at h
          subst h
          exact hqe
      refine ⟨l, p, [], by simp, ?_, hep, ?_, by simp⟩
      · rw [chooseBest_append_singleton, if_pos ⟨hep, by rw [hinit]; exact Nat.zero_le _⟩]
      · intro q hq hqe
        rcases List.mem_append.mp hq with h | h
        · exact absurd ⟨q, h, hqe⟩ hel
        · simp at h
          subst h
          exact le_refl _

end ChooseBestLemmas

section SortLemmas

theorem sortForOutput_sorted (res : List CPS.Phrase) :
    (sortForOutput res).Pairwise fun a b =>
      b.support < a.support ∨
        (a.support = b.support ∧ b.tokens.length ≤ a.tokens.length) := by
  unfold sortForOutput
  haveI htot : IsTotal CPS.Phrase (fun a b =>
      b.support < a.support ∨
        (a.support = b.support ∧ b.tokens.length ≤ a.tokens.length)) := by
    constructor
    intro a b
    rcases Nat.lt_trichotomy a.support b.support with h | h | h
    · right
      left
      exact h
    · rcases Nat.le_total b.tokens.length a.tokens.length with h2 | h2
      · left
        right
        exact ⟨h, h2⟩
      · right
        right
        exact ⟨h.symm, h2⟩
    · left
      left
      exact h
  haveI htrans : IsTrans CPS.Phrase (fun a b =>
      b.support < a.support ∨
        (a.support = b.support ∧ b.tokens.length ≤ a.tokens.length)) := by
    constructor
    intro a b c hab hbc
    rcases hab with h1 | ⟨h1, h1'⟩ <;> rcases hbc with h2 | ⟨h2, h2'⟩
    · left
      omega
    · left
      omega
    · left
      omega
    · right
      exact ⟨h1.trans h2, h2'.trans h1'⟩
  exact List.sorted_insertionSort _ res

end SortLemmas

section BridgeLemmas

theorem run_eq_dbOf (docs : List (List Nat)) (min_docs min_length : Nat)
    (mode : CPS.MiningMode) :
    CPS.run docs min_docs min_length mode =
      CPS.mine_recursive docs min_docs min_length mode (maxDocLen docs + 1)
        (CPS.dbOf docs []) [] ((suppList docs []).length) := by
  unfold CPS.run
  rw [initial_db_eq, initial_support_eq]

theorem docAt_length_le_maxDocLen (docs : List (List Nat)) (i : Nat) :
    (docAt docs i).length ≤ maxDocLen docs := by
  unfold docAt maxDocLen
  by_cases h : i < docs.length
  · have hmem : docs.getD i [] ∈ docs := by
      rw [List.getD_eq_getElem?_getD, List.getElem?_eq_getElem h]
      exact List.getElem_mem h
    exact le_foldr_max (List.mem_map_of_mem _ hmem)
  · rw [List.getD_eq_getElem?_getD, List.getElem?_eq_none (by omega)]
    simp

theorem matchesAt_getD {d pat : List Nat} {j : Nat} (h : matchesAt d pat j)
    (i : Nat) (hi : i < pat.length) : d.getD (j + i) 0 = pat.getD i 0 := by
  unfold matchesAt at h
  rw [List.getD_eq_getElem?_getD, List.getD_eq_getElem?_getD]
  have h1 : pat[i]? = ((d.drop j).take pat.length)[i]? := by rw [h]
  rw [h1, List.getElem?_take, if_pos hi, List.getElem?_drop]

end BridgeLemmas

section Claims

/-- C1, counterexample.  On the corpus with documents `0 1 2` and `0 1`,
CPS in `ALL` mode with `min_docs = 1`, `L = 2` emits the phrase `0 1` with
`support = 2` but an occurrence set containing only document `0`: the match
of `0 1` in document `1` ends at the document boundary and its continuation
point is dropped, so the emitted support exceeds the distinct-document
count of the emitted occurrences. -/
theorem C1_counterexample :
    ¬ ∀ ph ∈ CPS.run [[0, 1, 2], [0, 1]] 1 2 CPS.MODE_ALL,
      ph.support = (ph.occs.dedup).length := by
  decide

/-- C1, amended.  For every phrase emitted by GME, `support` equals the
number of distinct document ids among the emitted occurrences.  For every
phrase emitted by CPS the occurrence list is duplicate-free and its length
is at most `support`; equality can fail when all of a document's matches
end at the document boundary. -/
theorem C1_amended :
    (∀ (docs : List (List Nat)) (min_docs n : Nat), ∀ ph ∈ GME.mine docs min_docs n,
      ph.support = ((ph.occs.map GME.Occurrence.doc_id).dedup).length) ∧
    (∀ (docs : List (List Nat)) (min_docs min_length : Nat) (mode : CPS.MiningMode),
      ∀ ph ∈ CPS.run docs min_docs min_length mode,
        ph.occs.Nodup ∧ ph.occs.length ≤ ph.support) := by
  constructor
  · intro docs min_docs n ph hph
    exact (mine_inv docs min_docs n ph hph).2.1
  · intro docs min_docs min_length mode ph hph
    rw [run_eq_dbOf] at hph
    obtain ⟨hsupp, hoccs, _, _, _⟩ := mine_recursive_sound docs min_docs min_length mode
      (maxDocLen docs + 1) [] ((suppList docs []).length) rfl (Or.inl rfl) ph hph
    constructor
    · rw [hoccs]
      exact List.nodup_dedup _
    · rw [hoccs, hsupp]
      exact dedup_dbOf_length_le docs ph.tokens

/-- C1, amended, witness at concrete inputs for both engines. -/
theorem C1_amended_witness :
    (⟨[7, 8], [⟨0, 0⟩], 1⟩ : GME.Phrase).support =
      ((([⟨0, 0⟩] : List GME.Occurrence).map GME.Occurrence.doc_id).dedup).length ∧
    ((⟨[0, 1], 2, [0]⟩ : CPS.Phrase).occs.Nodup ∧
      (⟨[0, 1], 2, [0]⟩ : CPS.Phrase).occs.length ≤ (⟨[0, 1], 2, [0]⟩ : CPS.Phrase).support) :=
  ⟨C1_amended.1 [[7, 8]] 1 1 _ (by decide),
    C1_amended.2 [[0, 1, 2], [0, 1]] 1 2 CPS.MODE_ALL _ (by decide)⟩

/-- C2, counterexample.  On the single document `a b c a b c a b c`
(encoded `0 1 2 0 1 2 0 1 2`) with `min_docs = 1`, `L = 2`, mode `ALL`,
the full nine-token pattern is a frequent contiguous pattern of length
at least two, yet CPS never emits it: its only match ends at the document
boundary, so the continuation point is dropped before the node for the
pattern can be reached. -/
theorem C2_counterexample :
    ¬ ∀ pat : List Nat, 2 ≤ pat.length →
      1 ≤ (suppList [[0, 1, 2, 0, 1, 2, 0, 1, 2]] pat).length →
      pat ∈ (CPS.run [[0, 1, 2, 0, 1, 2, 0, 1, 2]] 1 2 CPS.MODE_ALL).map CPS.Phrase.tokens := by
  intro h
  exact absurd (h [0, 1, 2, 0, 1, 2, 0, 1, 2] (by decide) (by decide)) (by decide)

/-- C2, amended.  In `ALL` mode CPS emits every contiguous pattern of
length at least `L` that occurs in at least `min_docs` distinct documents
and that has at least one occurrence followed by a further token in its
document; a pattern all of whose occurrences end exactly at a document
boundary is never emitted. -/
theorem C2_amended (docs : List (List Nat)) (min_docs min_length : Nat) (pat : List Nat)
    (hlen : min_length ≤ pat.length)
    (hsupp : min_docs ≤ (suppList docs pat).length)
    (hext : CPS.Extendable docs pat) :
    pat ∈ (CPS.run docs min_docs min_length CPS.MODE_ALL).map CPS.Phrase.tokens := by
  rw [run_eq_dbOf]
  have hflen : pat.length < maxDocLen docs + 1 := by
    obtain ⟨i, hi, j, hm, hlt⟩ := hext
    have := docAt_length_le_maxDocLen docs i
    omega
  exact mine_recursive_complete docs min_docs min_length pat (maxDocLen docs + 1) []
    ((suppList docs []).length) hlen hsupp hext hflen

/-- C2, amended, witness: the four-token pattern `0 1 2 0` of the scenario
corpus is emitted. -/
theorem C2_amended_witness :
    [0, 1, 2, 0] ∈
      (CPS.run [[0, 1, 2, 0, 1, 2, 0, 1, 2]] 1 2 CPS.MODE_ALL).map CPS.Phrase.tokens :=
  C2_amended [[0, 1, 2, 0, 1, 2, 0, 1, 2]] 1 2 [0, 1, 2, 0] (by decide) (by decide)
    ⟨0, by decide, 0, by decide, by decide⟩

/-- C3, counterexample.  On the single two-token document, the initial
projected database built by `run` is not the one continuation point
`(0, 0)` of the claim: it also holds `(0, 1)`, because `run` pushes a
point for every position of every non-empty document. -/
theorem C3_counterexample :
    CPS.initial_db [[0, 1]] ≠
      ((List.range ([[0, 1]] : List (List Nat)).length).filter
        (fun i => !(docAt [[0, 1]] i).isEmpty)).map (fun i => (⟨i, 0, 0⟩ : CPS.Projection)) := by
  decide

/-- C3, amended.  The initial projected database contains exactly the
continuation points `(d, j, j)` for every document `d` and every position
`j < |d|` (empty documents contribute nothing), and nothing else. -/
theorem C3_amended (docs : List (List Nat)) (pr : CPS.Projection) :
    pr ∈ CPS.initial_db docs ↔
      pr.doc_id < docs.length ∧ pr.pos < (docAt docs pr.doc_id).length ∧
        pr.origin = pr.pos := by
  rw [initial_db_eq, mem_dbOf]
  constructor
  · rintro ⟨h1, _, h3, h4⟩
    simp only [List.length_nil, Nat.add_zero] at h3 h4
    rw [h4]
    exact ⟨h1, h3, rfl⟩
  · rintro ⟨h1, h2, h3⟩
    refine ⟨h1, matchesAt_nil _ _, ?_, ?_⟩
    · simp only [List.length_nil, Nat.add_zero]
      rw [h3]
      exact h2
    · simp only [List.length_nil, Nat.add_zero]
      rw [h3]

/-- C4, counterexample.  The loader shuffles the scanned files with a
`std::random_device`-seeded generator, so a run is a function of the
shuffled order; two runs over the same set of files presented in different
orders produce different CSV bytes (the `example_files` column lists the
paths of the first two supporting documents in corpus order). -/
theorem C4_counterexample :
    ¬ ∀ (l1 l2 : List (String × String)) (min_docs n : Nat), l1.Perm l2 →
      GME.pipeline l1 min_docs n = GME.pipeline l2 min_docs n := by
  intro h
  exact absurd
    (h [("f1", "x"), ("f2", "x"), ("f3", "x")] [("f3", "x"), ("f2", "x"), ("f1", "x")] 3 1
      (by decide))
    (by decide)

/-- C4, amended.  The pipeline is a pure function of the ordered file
list and the parameters: two runs whose randomized shuffles present the
files in the same order produce byte-identical output CSV files. -/
theorem C4_amended (l1 l2 : List (String × String)) (min_docs n : Nat) (h : l1 = l2) :
    GME.pipeline l1 min_docs n = GME.pipeline l2 min_docs n := by
  rw [h]

/-- C4, amended, witness. -/
theorem C4_amended_witness :
    GME.pipeline [("a", "b c")] 1 1 = GME.pipeline [("a", "b c")] 1 1 :=
  C4_amended [("a", "b c")] [("a", "b c")] 1 1 rfl

/-- C5, counterexample.  With documents `9 1` and `9 2` and the candidate
phrase `9` occurring in both, the two next tokens `1` and `2` tie at
support one; the spec's first-encountered rule selects token `1`, but the
extension step appends token `2`: the `>=` comparison in the scan lets a
later tie replace the current best. -/
theorem C5_counterexample :
    (GME.extendStep [[9, 1], [9, 2]] 1 ⟨[9], [⟨0, 0⟩, ⟨1, 0⟩], 2⟩).tokens = [9, 2] ∧
    GME.specFirstMaxWord 1
      (GME.nextWordOccs [[9, 1], [9, 2]] ⟨[9], [⟨0, 0⟩, ⟨1, 0⟩], 2⟩) = some 1 := by
  decide

/-- C5, amended.  The best-extension scan picks a token of maximal
distinct-document support among the candidates reaching `min_docs`, and
when several tie for the maximum it picks the one encountered last: the
chosen entry is the last entry of the candidate list whose support is not
exceeded later. -/
theorem C5_amended (min_docs : Nat) (items : List (Nat × List GME.Occurrence))
    (hex : ∃ p ∈ items, min_docs ≤ GME.uniqDocs p.2) :
    ∃ l₁ p l₂, items = l₁ ++ p :: l₂ ∧
      GME.chooseBest min_docs items = ⟨p.1, GME.uniqDocs p.2, p.2⟩ ∧
      min_docs ≤ GME.uniqDocs p.2 ∧
      (∀ q ∈ items, min_docs ≤ GME.uniqDocs q.2 →
        GME.uniqDocs q.2 ≤ GME.uniqDocs p.2) ∧
      (∀ q ∈ l₂, min_docs ≤ GME.uniqDocs q.2 →
        GME.uniqDocs q.2 < GME.uniqDocs p.2) :=
  chooseBest_last_max min_docs items hex

/-- C5, amended, witness at the tie of the counterexample corpus. -/
theorem C5_amended_witness :
    ∃ l₁ p l₂,
      ([(1, [⟨0, 1⟩]), (2, [⟨1, 1⟩])] : List (Nat × List GME.Occurrence)) =
        l₁ ++ p :: l₂ ∧
      GME.chooseBest 1 [(1, [⟨0, 1⟩]), (2, [⟨1, 1⟩])] = ⟨p.1, GME.uniqDocs p.2, p.2⟩ ∧
      1 ≤ GME.uniqDocs p.2 ∧
      (∀ q ∈ ([(1, [⟨0, 1⟩]), (2, [⟨1, 1⟩])] : List (Nat × List GME.Occurrence)),
        1 ≤ GME.uniqDocs q.2 → GME.uniqDocs q.2 ≤ GME.uniqDocs p.2) ∧
      (∀ q ∈ l₂, 1 ≤ GME.uniqDocs q.2 → GME.uniqDocs q.2 < GME.uniqDocs p.2) :=
  C5_amended 1 [(1, [⟨0, 1⟩]), (2, [⟨1, 1⟩])] ⟨(1, [⟨0, 1⟩]), by decide, by decide⟩

/-- C6, counterexample.  With `L = 0` the CPS root node emits the empty
phrase whose support is the number of non-empty documents, with no check
against `min_docs`: on a one-document corpus with `min_docs = 2` a phrase
of support one is emitted. -/
theorem C6_counterexample :
    ¬ ∀ ph ∈ CPS.run [[0]] 2 0 CPS.MODE_ALL, 2 ≤ ph.support := by
  decide

/-- C6, amended.  Every phrase emitted by GME has support at least
`min_docs`, for all parameters; every phrase emitted by CPS has support at
least `min_docs` provided `L ≥ 1` (the violation arises only for the empty
phrase emitted at the root when `L = 0`). -/
theorem C6_amended :
    (∀ (docs : List (List Nat)) (min_docs n : Nat), ∀ ph ∈ GME.mine docs min_docs n,
      min_docs ≤ ph.support) ∧
    (∀ (docs : List (List Nat)) (min_docs min_length : Nat) (mode : CPS.MiningMode),
      1 ≤ min_length → ∀ ph ∈ CPS.run docs min_docs min_length mode,
        min_docs ≤ ph.support) := by
  constructor
  · intro docs min_docs n ph hph
    exact (mine_inv docs min_docs n ph hph).2.2
  · intro docs min_docs min_length mode hml ph hph
    rw [run_eq_dbOf] at hph
    obtain ⟨_, _, hlen, hbound, _⟩ := mine_recursive_sound docs min_docs min_length mode
      (maxDocLen docs + 1) [] ((suppList docs []).length) rfl (Or.inl rfl) ph hph
    have hne : ph.tokens ≠ [] := by
      intro hc
      rw [hc] at hlen
      simp at hlen
      omega
    exact (hbound hne).2

/-- C6, amended, witness at concrete inputs for both engines. -/
theorem C6_amended_witness :
    1 ≤ (⟨[7, 8], [⟨0, 0⟩], 1⟩ : GME.Phrase).support ∧
    1 ≤ (⟨[0, 1], 2, [0]⟩ : CPS.Phrase).support :=
  ⟨C6_amended.1 [[7, 8]] 1 1 _ (by decide),
    C6_amended.2 [[0, 1, 2], [0, 1]] 1 2 CPS.MODE_ALL (by decide) _ (by decide)⟩

/-- C7, confirmed.  Every occurrence `(d, p)` carried by a phrase emitted
by GME satisfies `p + |tokens| ≤ |Document d|` and
`Document d [p + i] = tokens[i]` for all `i < |tokens|`; moreover a single
greedy extension step preserves this shape for every occurrence it keeps,
so the property holds for the initial seed and after every extension
step. -/
theorem C7_gme_contiguity :
    (∀ (docs : List (List Nat)) (min_docs n : Nat), ∀ ph ∈ GME.mine docs min_docs n,
      ∀ o ∈ ph.occs, o.pos + ph.tokens.length ≤ (docAt docs o.doc_id).length ∧
        ∀ i < ph.tokens.length,
          (docAt docs o.doc_id).getD (o.pos + i) 0 = ph.tokens.getD i 0) ∧
    (∀ (docs : List (List Nat)) (min_docs : Nat) (c : GME.Phrase),
      (∀ o ∈ c.occs, GME.OccFits docs c.tokens o) →
      ∀ o ∈ (GME.extendStep docs min_docs c).occs,
        GME.OccFits docs (GME.extendStep docs min_docs c).tokens o) := by
  constructor
  · intro docs min_docs n ph hph o ho
    obtain ⟨hfit, _, _⟩ := mine_inv docs min_docs n ph hph
    obtain ⟨hle, hm⟩ := hfit o ho
    exact ⟨hle, fun i hi => matchesAt_getD hm i hi⟩
  · intro docs min_docs c hfit o ho
    unfold GME.extendStep at ho ⊢
    rcases chooseBest_cases min_docs (GME.nextWordOccs docs c) with hinit | ⟨p, hp, heq, _⟩
    · rw [hinit] at ho ⊢
      simp only [Nat.lt_irrefl, if_false] at ho ⊢
      exact hfit o ho
    · rw [heq] at ho ⊢
      by_cases hpos : 0 < GME.uniqDocs p.2
      · simp only [if_pos hpos] at ho ⊢
        obtain ⟨hoc, hlt, htok⟩ := nextWordOccs_inv docs c p hp o ho
        constructor
        · simp only [List.length_append, List.length_singleton]
          omega
        · rw [matchesAt_snoc]
          exact ⟨(hfit o hoc).2, hlt, htok⟩
      · simp only [if_neg hpos] at ho ⊢
        exact hfit o ho

/-- C7, witness at a concrete mined phrase and a concrete extension
step. -/
theorem C7_witness :
    ((⟨0, 0⟩ : GME.Occurrence).pos + ([7, 8] : List Nat).length ≤
        (docAt [[7, 8]] (⟨0, 0⟩ : GME.Occurrence).doc_id).length ∧
      ∀ i < ([7, 8] : List Nat).length,
        (docAt [[7, 8]] (⟨0, 0⟩ : GME.Occurrence).doc_id).getD
          ((⟨0, 0⟩ : GME.Occurrence).pos + i) 0 = ([7, 8] : List Nat).getD i 0) ∧
    GME.OccFits [[7, 8]]
      (GME.extendStep [[7, 8]] 1 ⟨[7], [⟨0, 0⟩], 1⟩).tokens ⟨0, 0⟩ :=
  ⟨C7_gme_contiguity.1 [[7, 8]] 1 1 ⟨[7, 8], [⟨0, 0⟩], 1⟩ (by decide) ⟨0, 0⟩ (by decide),
    C7_gme_contiguity.2 [[7, 8]] 1 ⟨[7], [⟨0, 0⟩], 1⟩ (by decide) ⟨0, 0⟩ (by decide)⟩

/-- C8, counterexample.  With `L = 0` and `min_docs = 2` on the
one-document corpus, CLOSED mode emits the empty phrase with support one,
although its one-token extension `0` has the same support one: the
equal-support check is guarded by the frequency test, which the extension
fails. -/
theorem C8_counterexample :
    ∃ ph ∈ CPS.run [[0]] 2 0 CPS.MODE_CLOSED,
      (suppList [[0]] (ph.tokens ++ [0])).length = ph.support := by
  decide

/-- C8, amended.  In CLOSED mode with `L ≥ 1`, no emitted phrase admits a
one-token contiguous rightward extension whose distinct-document support
equals the emitted phrase's support. -/
theorem C8_amended (docs : List (List Nat)) (min_docs min_length : Nat)
    (hml : 1 ≤ min_length) :
    ∀ ph ∈ CPS.run docs min_docs min_length CPS.MODE_CLOSED, ∀ w,
      (suppList docs (ph.tokens ++ [w])).length ≠ ph.support := by
  intro ph hph w
  rw [run_eq_dbOf] at hph
  obtain ⟨_, _, hlen, _, hclosed⟩ := mine_recursive_sound docs min_docs min_length
    CPS.MODE_CLOSED (maxDocLen docs + 1) [] ((suppList docs []).length) rfl (Or.inl rfl) ph hph
  have hne : ph.tokens ≠ [] := by
    intro hc
    rw [hc] at hlen
    simp at hlen
    omega
  exact hclosed rfl hne w

/-- C8, amended, witness: the phrase `0` emitted by CLOSED mining of the
two-document corpus has no support-preserving extension by token `0`. -/
theorem C8_amended_witness :
    (suppList [[0, 1], [0, 2]] ((⟨[0], 2, [0, 1]⟩ : CPS.Phrase).tokens ++ [0])).length ≠
      (⟨[0], 2, [0, 1]⟩ : CPS.Phrase).support :=
  C8_amended [[0, 1], [0, 2]] 1 1 (by decide) ⟨[0], 2, [0, 1]⟩ (by decide) 0

/-- C9, counterexample.  The GME writer emits phrases in candidate order
after greedy extension, and extension can lower a support below that of a
later candidate: on the corpus below the first emitted phrase has support
two and the second support four, so the rows are not sorted by support
descending. -/
theorem C9_counterexample :
    ¬ (GME.mine [[0, 1], [0, 1], [0, 2], [0, 3], [0, 4], [5], [5], [5], [5]] 1 1).Pairwise
      (fun a b => b.support < a.support ∨
        (a.support = b.support ∧ b.tokens.length ≤ a.tokens.length)) := by
  decide

/-- C9, amended.  The CPS-variant `save_to_csv` sorts its rows by support
descending with ties broken by token count descending; the GME-variant
writer emits rows in mining emission order, which need not be sorted. -/
theorem C9_amended (res : List CPS.Phrase) :
    (sortForOutput res).Pairwise fun a b =>
      b.support < a.support ∨
        (a.support = b.support ∧ b.tokens.length ≤ a.tokens.length) :=
  sortForOutput_sorted res

/-- C10, confirmed.  `mine_recursive` terminates on every finite corpus:
every child projected database advances each surviving continuation point
by exactly one position and discards points at a document's end, so the
recursion depth from the initial database is bounded by the longest
document's length, and any fuel beyond that bound computes the same
result as `run`. -/
theorem C10_termination (docs : List (List Nat)) (min_docs min_length : Nat)
    (mode : CPS.MiningMode) (fuel : Nat) (hfuel : maxDocLen docs < fuel) :
    CPS.mine_recursive docs min_docs min_length mode fuel (CPS.initial_db docs) []
      (CPS.initial_support docs) = CPS.run docs min_docs min_length mode := by
  unfold CPS.run
  apply mine_recursive_fuel
  · exact lt_of_le_of_lt (remBound_initial_le docs) hfuel
  · exact lt_of_le_of_lt (remBound_initial_le docs) (Nat.lt_succ_self _)

/-- C10, witness: any ample fuel reproduces the canonical run on a
concrete corpus. -/
theorem C10_witness :
    maxDocLen [[0, 1]] < 5 ∧
      CPS.mine_recursive [[0, 1]] 1 1 CPS.MODE_ALL 5 (CPS.initial_db [[0, 1]]) []
        (CPS.initial_support [[0, 1]]) = CPS.run [[0, 1]] 1 1 CPS.MODE_ALL :=
  ⟨by decide, C10_termination [[0, 1]] 1 1 CPS.MODE_ALL 5 (by decide)⟩

end Claims
